import Mathlib

/-!
Verification of the probabilistic-filter subsystem of the clp repository
(`src/components/core/src/clp_s/filter` and its writers/consumers).

Modelling conventions:
* C++ strings and byte buffers are modelled as `List Nat` with every element `< 256`;
  machine integers are `Nat` with explicit `% 2 ^ w` at the points where the source
  relies on unsigned wraparound.
* `absl::flat_hash_map` / `std::unordered_map` are modelled as association lists with
  first-match lookup; `absl::flat_hash_set` as duplicate-free lists.
* Floating-point computations (filter sizing from a target false-positive rate) never
  influence control flow of the verified algorithms except through the resulting
  integer parameters; they are passed in as explicit parameters.  The policy
  arithmetic itself (claim C9) is modelled over `ℚ` with the two transcendental
  calls (`std::log2`, `std::log(2.0)`) as function/value parameters.
* `SHA-256` (`clp::get_sha256_hash`, an external library the sources call) is
  modelled as an abstract 64-bit digest-prefix function `hf`; the salting with
  `"_bloom_"` that the source performs around it is modelled explicitly.
-/

set_option maxHeartbeats 1000000
set_option maxRecDepth 10000

namespace ClpS

/-- C++ strings / byte buffers: little-endian byte lists (each element `< 256`). -/
abbrev Str := List Nat

/-- All bytes of a buffer are in range. -/
def BytesWF (l : List Nat) : Prop := ∀ b ∈ l, b < 256

instance : DecidablePred BytesWF := fun l => List.decidableBAll _ l

/-- First-match association-list lookup (`flat_hash_map::find`). -/
def alookup {α β : Type} [DecidableEq α] : List (α × β) → α → Option β
  | [], _ => none
  | (k, v) :: rest, key => if key = k then some v else alookup rest key

/-- Hash-set insertion: no duplicates (`flat_hash_set::insert`). -/
def hsInsert {α : Type} [DecidableEq α] (l : List α) (x : α) : List α :=
  if x ∈ l then l else l ++ [x]

/-- XOR-fold of a list (used for the binary-fuse peeling bookkeeping). -/
def listXor (l : List Nat) : Nat := l.foldr (fun a b => a ^^^ b) 0

/-- Pointwise array update for arrays modelled as functions `Nat → Nat`. -/
def updf (f : Nat → Nat) (i v : Nat) : Nat → Nat := fun j => if j = i then v else f j

/-! ### Little-endian numeric serialization (`write_numeric_value` / `try_read_numeric_value`) -/

/-- The `n` little-endian bytes of a machine integer. -/
def leBytes (n v : Nat) : List Nat := (List.range n).map fun i => v / 256 ^ i % 256

/-- Little-endian bytes of a `uint32_t`. -/
def u32le (v : Nat) : List Nat := leBytes 4 v

/-- Little-endian bytes of a `uint64_t`. -/
def u64le (v : Nat) : List Nat := leBytes 8 v

/-- Value of a little-endian byte list. -/
def leVal : List Nat → Nat
  | [] => 0
  | b :: rest => b + 256 * leVal rest

/-- Consume `n` bytes from a stream; fails if the stream is shorter. -/
def readBytes (n : Nat) (s : List Nat) : Option (List Nat × List Nat) :=
  if n ≤ s.length then some (s.take n, s.drop n) else none

/-- Read a little-endian unsigned integer of `n` bytes. -/
def readLE (n : Nat) (s : List Nat) : Option (Nat × List Nat) :=
  (readBytes n s).map fun (bs, rest) => (leVal bs, rest)

/-! ### Claim C2 — `SchemaIntColumnFilter` / `SchemaStringColumnFilter`

Source: `src/components/core/src/clp_s/filter/SchemaIntColumnFilter.cpp` and
`SchemaStringColumnFilter.cpp`.  The per-column value sets are exact sets keyed by
column id. -/

/-- State of `SchemaIntColumnFilter` (`m_column_values_map`, `m_column_count_map`). -/
structure SchemaIntColumnFilter where
  columnValuesMap : List (Int × List Int)
  columnCountMap : List (Int × Int)

/-- `SchemaIntColumnFilter::contains` (SchemaIntColumnFilter.cpp, lines 126-133):
returns `false` when the column id is absent from the map. -/
def schemaIntContains (f : SchemaIntColumnFilter) (columnId : Int) (value : Int) : Bool :=
  match alookup f.columnValuesMap columnId with
  | none => false
  | some values => decide (value ∈ values)

/-- State of `SchemaStringColumnFilter`. -/
structure SchemaStringColumnFilter where
  columnValuesMap : List (Int × List Str)
  columnCountMap : List (Int × Int)

/-- `SchemaStringColumnFilter::contains` (SchemaStringColumnFilter.cpp, lines 140-147):
returns `true` when the column id is absent from the map. -/
def schemaStrContains (f : SchemaStringColumnFilter) (columnId : Int) (value : Str) : Bool :=
  match alookup f.columnValuesMap columnId with
  | none => true
  | some values => decide (value ∈ values)

/-! ### Claim C6 — `NGramPrefixFilter::possibly_contains`

Source: `src/components/core/src/clp_s/filter/NGramPrefixFilter.cpp`, lines 200-228.
The per-length inner filters are `ProbabilisticFilter` values; their query behaviour
is abstracted as functions `Str → Bool`. -/

/-- `NGramPrefixFilter::possibly_contains`: look up the inner filter for the query's
length class; short queries are tested directly, otherwise every length-`n`
substring must pass. -/
def ngramPossiblyContains (filterMap : List (Nat × (Str → Bool))) (n : Nat)
    (value : Str) : Bool :=
  match alookup filterMap value.length with
  | none => false
  | some f =>
    if value.length < n then f value
    else (List.range (value.length + 1 - n)).all fun pos => f ((value.drop pos).take n)

/-- `NGramPrefixFilter::add`: group keys into length classes (`m_length_key_map`). -/
def ngramAdd (m : List (Nat × List Str)) (value : Str) : List (Nat × List Str) :=
  match alookup m value.length with
  | none => m ++ [(value.length, [value])]
  | some ks =>
    m.map fun p => if p.1 = value.length then (p.1, hsInsert ks value) else p

/-- `NGramPrefixFilter::calculate_n`: with no keys the class count is zero and
`m_n` is set to `0`; otherwise `n` is derived by floating-point arithmetic from the
key statistics, abstracted as `nDerive`. -/
def calculateN (nDerive : List (Nat × List Str) → Nat) (lkm : List (Nat × List Str)) : Nat :=
  if (lkm.foldl (fun acc p => acc + p.2.length) 0) = 0 then 0 else nDerive lkm

/-- The `NGramPrefixFilter(key_set, fpr)` constructor pipeline: bucket keys by length,
derive `n`, and build one inner filter per length class (`construct_filters` builds an
inner `ProbabilisticFilter` for every class in `m_length_key_map`, whichever branch is
taken; the inner construction is abstracted as `innerBuild`).  Returns the
per-length filter map and `m_n`. -/
def ngramFromKeySet (nDerive : List (Nat × List Str) → Nat)
    (innerBuild : Nat → List Str → (Str → Bool)) (keys : List Str) :
    List (Nat × (Str → Bool)) × Nat :=
  let lkm := keys.foldl ngramAdd []
  let n := calculateN nDerive lkm
  (lkm.map fun p => (p.1, innerBuild p.1 p.2), n)

/-- `NGramPrefixFilter::is_empty`: the per-length filter map is empty. -/
def ngramIsEmpty (filterMap : List (Nat × (Str → Bool))) : Bool := filterMap.isEmpty

/-! ### Claim C9 — `BloomFilterPolicy`

Source: `src/components/core/src/clp_s/filter/FilterPolicy/BloomFilterPolicy.hpp`.
The double arithmetic is modelled over `ℚ`; `std::log2` is the parameter `log2fn`
and the value `std::log(2.0)` is the parameter `lnTwo`.  `std::round` on the
non-negative values arising here agrees with `round : ℚ → ℤ`. -/

/-- `BloomFilterPolicy::compute_bits_per_key` (lines 82-90): degenerate inputs map to
the fixed values `100.0` and `0.1`; otherwise `-log2(p) / log(2.0)`. -/
def computeBitsPerKey (log2fn : ℚ → ℚ) (lnTwo : ℚ) (p : ℚ) : ℚ :=
  if p ≤ 0 then 100
  else if 1 ≤ p then 1 / 10
  else -(log2fn p) / lnTwo

/-- `BloomFilterPolicy::compute_num_hash_functions` (lines 45-49):
`max(1, uint32(round(bits_per_key * log(2.0))))`. -/
def computeNumHashFunctions (lnTwo : ℚ) (bitsPerKey : ℚ) : Nat :=
  max 1 (round (bitsPerKey * lnTwo)).toNat

/-- `BloomFilterPolicy::compute_parameters` (lines 22-27). -/
def computeParameters (log2fn : ℚ → ℚ) (lnTwo : ℚ) (p : ℚ) : ℚ × Nat :=
  let bitsPerKey := computeBitsPerKey log2fn lnTwo p
  (bitsPerKey, computeNumHashFunctions lnTwo bitsPerKey)

/-! ### Bloom filter core

Source: `src/components/core/src/clp_s/filter/BloomFilter.cpp`.  Shared by claims
C3, C5, C7, C8. -/

/-- `BloomFilter` state: `m_bit_array` (bytes), `m_bit_array_size` (bits),
`m_num_hash_functions`. -/
structure BloomFilter where
  bitArray : List Nat
  bitArraySize : Nat
  numHashFunctions : Nat
deriving DecidableEq

/-- The salt `"_bloom_"` appended for the second hash (BloomFilter.cpp line 124). -/
def bloomSalt : Str := [95, 98, 108, 111, 111, 109, 95]

/-- `BloomFilter::generate_hash_values`: double hashing `h1 + i * h2` with `uint64`
wraparound.  `hf` abstracts the first 8 bytes (little-endian) of the SHA-256 digest. -/
def generateHashValues (hf : Str → Nat) (numHash : Nat) (value : Str) : List Nat :=
  let h1 := hf value % 2 ^ 64
  let h2 := hf (value ++ bloomSalt) % 2 ^ 64
  (List.range numHash).map fun i => (h1 + i * h2) % 2 ^ 64

/-- `BloomFilter::set_bit`. -/
def setBitArr (bytes : List Nat) (bitIndex : Nat) : List Nat :=
  bytes.set (bitIndex / 8) (bytes.getD (bitIndex / 8) 0 ||| 1 <<< (bitIndex % 8))

/-- `BloomFilter::test_bit`. -/
def testBitArr (bytes : List Nat) (bitIndex : Nat) : Bool :=
  bytes.getD (bitIndex / 8) 0 &&& 1 <<< (bitIndex % 8) != 0

/-- `BloomFilter::add`. -/
def bloomAdd (hf : Str → Nat) (f : BloomFilter) (value : Str) : BloomFilter :=
  let newArr := (generateHashValues hf f.numHashFunctions value).foldl
    (fun arr hv => setBitArr arr (hv % f.bitArraySize)) f.bitArray
  { f with bitArray := newArr }

/-- `BloomFilter::possibly_contains` (BloomFilter.cpp, lines 77-92). -/
def bloomPossiblyContains (hf : Str → Nat) (f : BloomFilter) (value : Str) : Bool :=
  if f.bitArray.isEmpty then false
  else (generateHashValues hf f.numHashFunctions value).all
    fun hv => testBitArr f.bitArray (hv % f.bitArraySize)

/-- `BloomFilter::is_empty`. -/
def bloomIsEmpty (f : BloomFilter) : Bool := f.bitArray.isEmpty

/-- The `BloomFilter(expected_num_elements, fpr)` constructor (BloomFilter.cpp,
lines 23-47): zero expected elements leaves the filter empty; otherwise the bit
count (`ceil(bits_per_key * n)`, floating point, abstracted as `sizing`) is floored
to 8 bits and the byte array zero-initialised.  `sizing n = (bit count, hash count)`. -/
def bloomInit (sizing : Nat → Nat × Nat) (expectedNumElements : Nat) : BloomFilter :=
  if expectedNumElements = 0 then ⟨[], 0, 0⟩
  else
    let bits := max (sizing expectedNumElements).1 8
    ⟨List.replicate ((bits + 7) / 8) 0, bits, (sizing expectedNumElements).2⟩

/-- The `BloomFilter(key_set, fpr)` constructor (lines 56-66). -/
def bloomFromKeySet (hf : Str → Nat) (sizing : Nat → Nat × Nat) (keys : List Str) :
    BloomFilter :=
  keys.foldl (bloomAdd hf) (bloomInit sizing keys.length)

/-! ### Claim C7 — `PrefixSuffixFilter`

Source: `src/components/core/src/clp_s/filter/PrefixSuffixFilter.cpp`.
Constants: `kMinLength = 3`, `kStride = 1`. -/

/-- `PrefixSuffixFilter` state: the two inner Bloom filters (`unique_ptr`s, absent on
a default-constructed filter). -/
structure PrefixSuffixFilter where
  forwardFilter : Option BloomFilter
  reverseFilter : Option BloomFilter

/-- `PrefixSuffixFilter::add_prefixes` (lines 72-89): short values are inserted
whole; otherwise every length-`len` front segment for `len = 3, 4, ..., |value|`
(stride 1), plus the full value when the stride missed it. -/
def psAddPrefixes (hf : Str → Nat) (value : Str) (f : BloomFilter) : BloomFilter :=
  if value.length < 3 then bloomAdd hf f value
  else
    let f := (List.range' 3 (value.length + 1 - 3)).foldl
      (fun f len => bloomAdd hf f (value.take len)) f
    if (value.length - 3) % 1 ≠ 0 then bloomAdd hf f value else f

/-- `PrefixSuffixFilter::add` (lines 60-70). -/
def psAdd (hf : Str → Nat) (f : PrefixSuffixFilter) (value : Str) : PrefixSuffixFilter :=
  if value.isEmpty then f
  else
    ⟨(f.forwardFilter).map (psAddPrefixes hf value),
     (f.reverseFilter).map (psAddPrefixes hf value.reverse)⟩

/-- The `PrefixSuffixFilter(key_set, fpr)` constructor (lines 38-58): count the
prefix insertions, fall back to the key count when zero, size the two inner Bloom
filters, then add every key. -/
def psFromKeySet (hf : Str → Nat) (sizing : Nat → Nat × Nat) (keys : List Str) :
    PrefixSuffixFilter :=
  let totalItems0 := keys.foldl
    (fun acc k => if 3 ≤ k.length then acc + (k.length - 3) / 1 + 1 else acc) 0
  let totalItems := if totalItems0 = 0 then keys.length else totalItems0
  keys.foldl (psAdd hf) ⟨some (bloomInit sizing totalItems), some (bloomInit sizing totalItems)⟩

/-- `PrefixSuffixFilter::is_empty` (lines 179-181). -/
def psIsEmpty (f : PrefixSuffixFilter) : Bool :=
  match f.forwardFilter with
  | none => true
  | some b => bloomIsEmpty b

/-- `PrefixSuffixFilter::possibly_contains` (lines 91-132).  `42` is the byte of
the wildcard character. -/
def psPossiblyContains (hf : Str → Nat) (f : PrefixSuffixFilter) (value : Str) : Bool :=
  if psIsEmpty f then false
  else
    let hasStartWildcard := match value with | [] => false | c :: _ => c == 42
    let hasEndWildcard := match value.getLast? with | none => false | some c => c == 42
    if hasStartWildcard && hasEndWildcard then true
    else if hasStartWildcard then
      bloomPossiblyContains hf ((f.reverseFilter).getD ⟨[], 0, 0⟩) (value.drop 1).reverse
    else if hasEndWildcard then
      bloomPossiblyContains hf ((f.forwardFilter).getD ⟨[], 0, 0⟩)
        (value.take (value.length - 1))
    else bloomPossiblyContains hf ((f.forwardFilter).getD ⟨[], 0, 0⟩) value

/-! ### Binary fuse filter (claims C1, C8)

Source: `src/components/core/src/clp_s/filter/BinaryFuseFilter.cpp`.
`m_filter_u16` / `m_filter_u32` are always empty in the source and are omitted;
`m_fingerprint_mask` always equals `2 ^ m_fingerprint_bits - 1` on the code paths
modelled here and is derived rather than stored. -/

/-- `BinaryFuseFilter` state. -/
structure BinaryFuseFilter where
  filterU8 : List Nat
  arraySize : Nat
  segmentLength : Nat
  fingerprintBits : Nat
  seed : Nat

/-- The WyHash-style 64-bit mixer (BinaryFuseFilter.cpp, lines 27-31):
128-bit product, xor of halves. -/
def fuseMix (a b : Nat) : Nat :=
  let r := a * b % 2 ^ 128
  r % 2 ^ 64 ^^^ r / 2 ^ 64

/-- `fast_range` (lines 34-36): `(uint128(hash) * range) >> 64`. -/
def fastRange (hash range : Nat) : Nat := hash * range / 2 ^ 64

/-- `BinaryFuseFilter::hash_key` (lines 341-349). -/
def hashKey (key : Str) (seed : Nat) : Nat :=
  fuseMix
    (key.foldl (fun h c => fuseMix (h ^^^ c % 256) 0xbf58476d1ce4e5b9)
      (seed ^^^ 0x9E3779B97F4A7C15))
    0x94d049bb133111eb

/-- The three slot positions and the fingerprint of a key. -/
structure FuseHash where
  p0 : Nat
  p1 : Nat
  p2 : Nat
  fp : Nat
deriving DecidableEq

/-- `BinaryFuseFilter::get_locations_and_fingerprint` (lines 351-368); the rotations
are `uint64` `(h >> k) | (h << (64 - k))`. -/
def getLocationsAndFingerprint (fpBits seg seed : Nat) (key : Str) : FuseHash :=
  let h := hashKey key seed
  let fp0 := h &&& (2 ^ fpBits - 1)
  let fp := if fp0 = 0 then 1 else fp0
  let h1 := (h >>> 21) ||| ((h <<< 43) % 2 ^ 64)
  let h2 := (h >>> 42) ||| ((h <<< 22) % 2 ^ 64)
  ⟨fastRange h seg, fastRange h1 seg + seg, fastRange h2 seg + 2 * seg, fp⟩

/-- `BinaryFuseFilter::get_filter_value` (lines 102-121): load up to 5 bytes from
the bit-packed buffer, shift and mask. -/
def getFilterValue (bytes : List Nat) (fpBits pos : Nat) : Nat :=
  let bitIndex := pos * fpBits
  let byteIndex := bitIndex / 8
  let bitOffset := bitIndex % 8
  let bytesToRead := min (bytes.length - byteIndex) 5
  let raw := (List.range bytesToRead).foldl
    (fun acc i => acc ||| bytes.getD (byteIndex + i) 0 <<< (8 * i)) 0
  (raw >>> bitOffset) &&& (2 ^ fpBits - 1)

/-- The byte-by-byte tail write of `BinaryFuseFilter::set_filter_value`
(lines 172-194).  The source loop runs while bits remain and the buffer end is
not reached; every iteration consumes at least one bit, so the initial
`bits_remaining` bounds the iteration count and serves as structural fuel. -/
def writeBitsGo : Nat → List Nat → Nat → Nat → Nat → Nat → List Nat
  | 0, bytes, _, _, _, _ => bytes
  | fuel + 1, bytes, curByte, curBit, bitsRem, tempVal =>
    if bitsRem = 0 ∨ bytes.length ≤ curByte then bytes
    else
      let bits := min (8 - curBit) bitsRem
      let mask := ((1 <<< bits) - 1) <<< curBit
      let byteVal := (tempVal &&& ((1 <<< bits) - 1)) <<< curBit
      let b := bytes.getD curByte 0
      writeBitsGo fuel (bytes.set curByte (b &&& (255 ^^^ mask) ||| byteVal))
        (curByte + 1) 0 (bitsRem - bits) (tempVal >>> bits)

def writeBitsTail (bytes : List Nat) (curByte curBit bitsRem tempVal : Nat) : List Nat :=
  writeBitsGo bitsRem bytes curByte curBit bitsRem tempVal

/-- `BinaryFuseFilter::set_filter_value` (lines 123-195): an aligned 64-bit
read-modify-write window when 8 bytes fit, otherwise a byte-by-byte tail write.
(The first loop in the source, lines 132-159, computes values that it discards.) -/
def setFilterValue (bytes : List Nat) (fpBits pos value : Nat) : List Nat :=
  let bitIndex := pos * fpBits
  let byteIndex := bitIndex / 8
  let bitOffset := bitIndex % 8
  let val64 := value &&& (2 ^ fpBits - 1)
  if byteIndex + 8 ≤ bytes.length then
    let window := leVal ((bytes.drop byteIndex).take 8)
    let cleared := window &&& ((2 ^ 64 - 1) ^^^ ((2 ^ fpBits - 1) <<< bitOffset))
    let window' := cleared ||| (val64 <<< bitOffset)
    bytes.take byteIndex ++ u64le window' ++ bytes.drop (byteIndex + 8)
  else writeBitsTail bytes byteIndex bitOffset fpBits value

/-- Bit-slice read of a big natural: the `w` bits starting at bit `j`.  Byte
buffers correspond to naturals through `leVal`; `getBits`/`setBitsN` are the
arithmetic views of the bit-packed fingerprint slots. -/
def getBits (N j w : Nat) : Nat := N / 2 ^ j % 2 ^ w

/-- Bit-slice write of a big natural: replace the `w` bits starting at bit `j`
by `v` (reduced mod `2 ^ w`). -/
def setBitsN (N j w v : Nat) : Nat :=
  N % 2 ^ j + v % 2 ^ w * 2 ^ j + N / 2 ^ (j + w) * 2 ^ (j + w)

/-- Phase 2 of `try_construct` (lines 288-298): per-slot incidence counts
(`uint8_t`, hence `% 256`) and XOR of incident key indices.  Arrays of length
`m_array_size` are modelled as functions; all accessed slots are `< m_array_size`. -/
def incSlot (i : Nat) (cx : (Nat → Nat) × (Nat → Nat)) (p : Nat) : (Nat → Nat) × (Nat → Nat) :=
  (updf cx.1 p ((cx.1 p + 1) % 256), updf cx.2 p (cx.2 p ^^^ i))

def buildIncidence (ihs : List (Nat × FuseHash)) : (Nat → Nat) × (Nat → Nat) :=
  ihs.foldl
    (fun cx ih => incSlot ih.1 (incSlot ih.1 (incSlot ih.1 cx ih.2.p0) ih.2.p1) ih.2.p2)
    (fun _ => 0, fun _ => 0)

/-- One neighbour update inside the peel loop (lines 319-323): XOR the peeled key
out, decrement the `uint8_t` count, enqueue the slot if the count became 1. -/
def peelNeighbor (k : Nat) (st : ((Nat → Nat) × (Nat → Nat)) × List Nat) (p : Nat) :
    ((Nat → Nat) × (Nat → Nat)) × List Nat :=
  let xorks := updf st.1.2 p (st.1.2 p ^^^ k)
  let c := (st.1.1 p + 255) % 256
  let counts := updf st.1.1 p c
  ((counts, xorks), if c = 1 then st.2 ++ [p] else st.2)

/-- Phase 3 of `try_construct` (lines 300-325): worklist peeling.  The C++ loop
walks a growing vector by head index; it is modelled with explicit fuel
(`array_size + 3 * n` bounds the number of queue entries ever processed in any
run in which the `uint8_t` counters do not wrap). -/
def peelLoop (hashes : List FuseHash) :
    Nat → List Nat → (Nat → Nat) → (Nat → Nat) → List (Nat × Nat) → List (Nat × Nat)
  | 0, _, _, _, stack => stack
  | _ + 1, [], _, _, stack => stack
  | fuel + 1, pos :: q, counts, xorks, stack =>
    if counts pos = 1 then
      let k := xorks pos
      let h := hashes.getD k ⟨0, 0, 0, 0⟩
      let st := peelNeighbor k (peelNeighbor k (peelNeighbor k ((counts, xorks), q) h.p0) h.p1) h.p2
      peelLoop hashes fuel st.2 st.1.1 st.1.2 (stack ++ [(k, pos)])
    else peelLoop hashes fuel q counts xorks stack

/-- Phase 4 of `try_construct` (lines 329-336): pop the stack in reverse and write
`fp ^ f(p0) ^ f(p1) ^ f(p2)` into the peeled slot of the zeroed bit-packed buffer. -/
def assignStack (hashes : List FuseHash) (fpBits : Nat) (stack : List (Nat × Nat))
    (bytes0 : List Nat) : List Nat :=
  stack.reverse.foldl
    (fun bytes kp =>
      let h := hashes.getD kp.1 ⟨0, 0, 0, 0⟩
      let xorVal := getFilterValue bytes fpBits h.p0 ^^^ getFilterValue bytes fpBits h.p1 ^^^
        getFilterValue bytes fpBits h.p2
      setFilterValue bytes fpBits kp.2 (h.fp ^^^ xorVal))
    bytes0

/-- `BinaryFuseFilter::try_construct` (lines 272-339) for one seed: hash all keys,
build the incidence arrays, peel, and on success (`stack.size() == n`) assign the
fingerprints into a zero-filled buffer of `ceil(array_size * fingerprint_bits / 8)`
bytes. -/
def tryConstruct (fpBits seg seed : Nat) (keys : List Str) : Option (List Nat) :=
  let n := keys.length
  let asize := 3 * seg
  let hashes := keys.map (getLocationsAndFingerprint fpBits seg seed)
  let cx := buildIncidence hashes.enum
  let q0 := (List.range asize).filter fun i => cx.1 i = 1
  let stack := peelLoop hashes (asize + 3 * n) q0 cx.1 cx.2 []
  if stack.length = n then
    some (assignStack hashes fpBits stack (List.replicate ((asize * fpBits + 7) / 8) 0))
  else none

/-- `BinaryFuseFilter::construct_filter` (lines 254-270): try seeds `0, 1, ...`
up to the cap (500 in the source); failure of every seed throws. -/
def constructFilter (fpBits seg maxAttempts : Nat) (keys : List Str) :
    Option (Nat × List Nat) :=
  (List.range maxAttempts).foldl
    (fun acc seed =>
      match acc with
      | some r => some r
      | none => (tryConstruct fpBits seg seed keys).map fun f => (seed, f))
    none

/-- `BinaryFuseFilter::possibly_contains` (lines 223-231). -/
def fusePossiblyContains (f : BinaryFuseFilter) (value : Str) : Bool :=
  if f.filterU8.isEmpty then false
  else
    let h := getLocationsAndFingerprint f.fingerprintBits f.segmentLength f.seed value
    (getFilterValue f.filterU8 f.fingerprintBits h.p0 ^^^
        getFilterValue f.filterU8 f.fingerprintBits h.p1 ^^^
        getFilterValue f.filterU8 f.fingerprintBits h.p2) == h.fp

/-- `BinaryFuseFilter::is_empty` (header): the packed buffer is empty (the unused
`u16`/`u32` vectors are always empty). -/
def fuseIsEmpty (f : BinaryFuseFilter) : Bool := f.filterU8.isEmpty

/-- The `BinaryFuseFilter(key_set, fpr)` constructor (lines 206-217): zero keys
leave the filter in its default-initialised state (`m_fingerprint_bits = 8`);
otherwise the sizing (`fingerprint_bits` from the policy, `segment_length` from the
expansion factor — floating-point, hence parameters) is fixed and `construct_filter`
runs the seed loop; construction failure throws (`none`). -/
def fuseFromKeySet (fpBits seg : Nat) (keys : List Str) : Option BinaryFuseFilter :=
  if keys.length = 0 then some ⟨[], 0, 0, 8, 0⟩
  else
    (constructFilter fpBits seg 500 keys).map fun r =>
      ⟨r.2, 3 * seg, seg, fpBits, r.1⟩

/-- Whether `p` is one of the three slot positions of `h`. -/
def fuseHasPos (h : FuseHash) (p : Nat) : Bool := p == h.p0 || p == h.p1 || p == h.p2

/-- Indices (into `hashes`) of the keys not yet peeled (not in `peeled`) that are
incident to slot `p`.  The source's `counts`/`xor_keys` arrays track the length
and XOR of this list. -/
def unpeeledAt (hashes : List FuseHash) (peeled : List Nat) (p : Nat) : List Nat :=
  (List.range hashes.length).filter fun k =>
    !(peeled.contains k) && fuseHasPos (hashes.getD k ⟨0, 0, 0, 0⟩) p

/-- Soundness invariant of the peeling stack: every entry pairs a valid key index
with one of its slots, no key is peeled twice, a peeled slot is never a slot of a
key peeled later, and a peeled slot has no unpeeled incident key left. -/
def fuseStackInv (hashes : List FuseHash) (stack : List (Nat × Nat)) : Prop :=
  (∀ e ∈ stack, e.1 < hashes.length ∧
    fuseHasPos (hashes.getD e.1 ⟨0, 0, 0, 0⟩) e.2 = true) ∧
  (stack.map Prod.fst).Nodup ∧
  stack.Pairwise (fun a b => fuseHasPos (hashes.getD b.1 ⟨0, 0, 0, 0⟩) a.2 = false) ∧
  (∀ e ∈ stack, unpeeledAt hashes (stack.map Prod.fst) e.2 = [])

/-! ### Claim C5 — Bloom serialization round trip

Source: `BloomFilter.cpp` lines 167-223 and `ProbabilisticFilter.cpp` lines 63-84.
The Zstd compressor/decompressor pair is an external collaborator that transports
the byte stream unchanged; serialization is modelled on the uncompressed stream. -/

/-- `BloomFilter::write_to_file`: kind byte (`FilterType::Bloom = 1`), `u32` hash
count, `u64` size in bits, `u64` size in bytes, then the bit array. -/
def bloomWriteToFile (f : BloomFilter) : List Nat :=
  1 % 256 :: u32le f.numHashFunctions ++ u64le f.bitArraySize ++
    u64le f.bitArray.length ++ f.bitArray

/-- `BloomFilter::read_from_file` (lines 186-223), after the kind byte has been
consumed: header fields then exactly `size-in-bytes` bytes of bit array. -/
def bloomReadFromFile (s : List Nat) : Option (BloomFilter × List Nat) :=
  (readLE 4 s).bind fun rNumHash =>
  (readLE 8 rNumHash.2).bind fun rSizeBits =>
  (readLE 8 rSizeBits.2).bind fun rSizeBytes =>
  (readBytes rSizeBytes.1 rSizeBytes.2).map fun rArr =>
    (⟨rArr.1, rSizeBits.1, rNumHash.1⟩, rArr.2)

/-- `ProbabilisticFilter::read_from_file` (lines 63-84): consume the kind byte;
only `FilterType::Bloom = 1` is accepted, anything else fails. -/
def probReadFromFile (s : List Nat) : Option (BloomFilter × List Nat) :=
  match s with
  | [] => none
  | ty :: rest => if ty = 1 then bloomReadFromFile rest else none

/-! ### Claim C3 — `VariableDictionaryWriter` and its bloom filter

Source: `src/components/core/src/clp_s/DictionaryWriter.cpp`. -/

/-- Events acting on an open `VariableDictionaryWriter`.  `evict` is modelled from
the spec: values may later be removed from the in-memory `value_to_id` map (e.g.
invariant values stored in the MPT); no eviction routine is present under `src/`,
only the comments in `add_entry`/`write_bloom_filter` documenting it. -/
inductive DictEvent where
  | addEntry (value : Str)
  | evict (value : Str)

/-- `VariableDictionaryWriter` state (fields used by `add_entry` and
`write_bloom_filter`). -/
structure VarDictWriter where
  useBloomFilter : Bool
  valueToId : List (Str × Nat)
  nextId : Nat
  maxId : Nat
  bloomFilterValues : List Str
deriving DecidableEq

/-- `open_with_bloom_filter` (lines 15-27): base open resets the id counters and
enables the bloom filter; the filter itself is only created on close. -/
def vdwOpenWithBloomFilter (maxId : Nat) : VarDictWriter := ⟨true, [], 0, maxId, []⟩

/-- `VariableDictionaryWriter::add_entry` (lines 29-65).  Returns the state, the
id, and whether a new entry was created; `none` models the `OperationFailed`
throw when the ids are exhausted. -/
def vdwAddEntry (w : VarDictWriter) (value : Str) : Option (VarDictWriter × Nat × Bool) :=
  match alookup w.valueToId value with
  | some id => some (w, id, false)
  | none =>
    if w.maxId < w.nextId then none
    else
      some
        ({ w with
            valueToId := w.valueToId ++ [(value, w.nextId)],
            nextId := w.nextId + 1,
            bloomFilterValues :=
              if w.useBloomFilter then hsInsert w.bloomFilterValues value
              else w.bloomFilterValues },
          w.nextId, true)

/-- Eviction from the in-memory map only (modelled from the spec; see `DictEvent`). -/
def vdwEvict (w : VarDictWriter) (value : Str) : VarDictWriter :=
  { w with valueToId := w.valueToId.filter fun p => p.1 ≠ value }

/-- Replay a sequence of events, collecting the values for which `add_entry`
created a new dictionary entry. -/
def vdwRun : List DictEvent → VarDictWriter → Option (VarDictWriter × List Str)
  | [], w => some (w, [])
  | DictEvent.addEntry v :: rest, w =>
    (vdwAddEntry w v).bind fun r =>
      (vdwRun rest r.1).map fun rr => (rr.1, if r.2.2 then v :: rr.2 else rr.2)
  | DictEvent.evict v :: rest, w => vdwRun rest (vdwEvict w v)

/-- `VariableDictionaryWriter::write_bloom_filter` (lines 97-147): when the filter
is enabled, build `BloomFilter(actual_entries, 0.07)` over the complete tracked
value set and return it (`none` when the filter is disabled and the function
returns immediately). -/
def vdwWriteBloomFilter (hf : Str → Nat) (sizing : Nat → Nat × Nat)
    (w : VarDictWriter) : Option BloomFilter :=
  if w.useBloomFilter then
    some (w.bloomFilterValues.foldl (bloomAdd hf)
      (bloomInit sizing w.bloomFilterValues.length))
  else none

/-! ### Claim C4 — archive-tier filter scan

Source: `src/components/core/src/clp_s/clp-filter.cpp` (`run_filter_scan`,
lines 630-671) and `src/components/core/src/clp_s/filter/FilterFile.cpp`
(`read_filter_file`, lines 32-90).  The body of a decoded filter is read by
`clp_s::filter::ProbabilisticFilter`, whose definition (together with
`FilterConfig.hpp`) is not present under `src/`; its body decoding and query
behaviour are abstracted by the parameters `bodyDecode` (per kind byte) and
`defaultAnswer` (the caller's default-constructed filter, returned untouched for
`FilterType::None`). -/

/-- The decoded metadata of a filter file that the scan uses. -/
structure FilterFileConfig where
  ftype : Nat
  fprBytes : List Nat
  normalize : Bool

/-- `read_filter_file`: magic `"CLPF"`, version `1`, kind byte, flags byte
(bit 0 = normalize), reserved `u16`, `f64` false-positive rate (kept as raw
bytes), `u64` element count, then the kind-specific body. -/
def readFilterFile (bodyDecode : Nat → List Nat → Option (Str → Bool))
    (defaultAnswer : Str → Bool) (s : List Nat) :
    Option (FilterFileConfig × (Str → Bool)) :=
  match readBytes 4 s with
  | none => none
  | some (magic, s) =>
    if magic ≠ [67, 76, 80, 70] then none
    else
      match readLE 4 s with
      | none => none
      | some (version, s) =>
        if version ≠ 1 then none
        else
          match readLE 1 s with
          | none => none
          | some (tyv, s) =>
            match readLE 1 s with
            | none => none
            | some (flags, s) =>
              match readLE 2 s with
              | none => none
              | some (_, s) =>
                match readBytes 8 s with
                | none => none
                | some (fpr, s) =>
                  match readLE 8 s with
                  | none => none
                  | some (_, s) =>
                    let cfg : FilterFileConfig := ⟨tyv, fpr, flags &&& 1 != 0⟩
                    if tyv = 0 then some (cfg, defaultAnswer)
                    else (bodyDecode tyv s).map fun pc => (cfg, pc)

/-- Pack-index entry as used by the scan. -/
structure PackIndexEntry where
  offset : Nat
  size : Nat

/-- Order-preserving term deduplication (lines 572-577: first occurrence wins). -/
def dedupTerms (terms : List Str) : List Str :=
  terms.foldl (fun acc t => if t ∈ acc then acc else acc ++ [t]) []

/-- `clp::string_utils::to_lower` (external collaborator): ASCII lower-casing,
applied byte-wise. -/
def toLowerStr (s : Str) : Str :=
  s.map fun c => if 65 ≤ c ∧ c ≤ 90 then c + 32 else c

/-- The per-archive decision of `run_filter_scan` (lines 630-671): no index entry,
an out-of-range byte slice, or a failed decode pass conservatively; a decoded
filter passes exactly when every term (the lower-cased variants when the filter's
normalize flag is set) passes `possibly_contains`. -/
def scanArchivePasses (bodyDecode : Nat → List Nat → Option (Str → Bool))
    (defaultAnswer : Str → Bool) (entries : List (Str × PackIndexEntry))
    (packBytes : List Nat) (bodyOffset : Nat) (uniqueTerms uniqueTermsLower : List Str)
    (archiveId : Str) : Bool :=
  match alookup entries archiveId with
  | none => true
  | some e =>
    let start := bodyOffset + e.offset
    if packBytes.length < start + e.size then true
    else
      match readFilterFile bodyDecode defaultAnswer ((packBytes.drop start).take e.size) with
      | none => true
      | some (cfg, pc) =>
        (if cfg.normalize then uniqueTermsLower else uniqueTerms).all fun t => pc t

/-- The scan loop of `run_filter_scan`: deduplicate the extracted terms, prepare
the lower-cased variants, then accumulate `passed` and `skipped` over the
requested archive ids. -/
def runFilterScan (bodyDecode : Nat → List Nat → Option (Str → Bool))
    (defaultAnswer : Str → Bool) (entries : List (Str × PackIndexEntry))
    (packBytes : List Nat) (bodyOffset : Nat) (terms : List Str)
    (archiveIds : List Str) : List Str × Nat :=
  let uniqueTerms := dedupTerms terms
  let uniqueTermsLower := uniqueTerms.map toLowerStr
  archiveIds.foldl
    (fun acc archiveId =>
      match alookup entries archiveId with
      | none => (acc.1 ++ [archiveId], acc.2)
      | some e =>
        let start := bodyOffset + e.offset
        if packBytes.length < start + e.size then (acc.1 ++ [archiveId], acc.2)
        else
          match readFilterFile bodyDecode defaultAnswer
            ((packBytes.drop start).take e.size) with
          | none => (acc.1 ++ [archiveId], acc.2)
          | some (cfg, pc) =>
            if (if cfg.normalize then uniqueTermsLower else uniqueTerms).all
                (fun t => pc t) then
              (acc.1 ++ [archiveId], acc.2)
            else (acc.1, acc.2 + 1))
    ([], 0)

/-! ### Claim C10 — `ProbabilisticFilter` wrapper with absent implementation

Source: `src/components/core/src/clp_s/filter/ProbabilisticFilter.cpp`.  The wrapper
owns `m_impl : unique_ptr<IProbabilisticFilter>`, modelled as `Option α` together
with a dispatch table for the concrete implementation. -/

/-- Virtual operations of a concrete `IProbabilisticFilter` implementation. -/
structure FilterImplOps (α : Type) where
  add : α → Str → α
  possiblyContains : α → Str → Bool
  writeToFile : α → List Nat
  isEmpty : α → Bool
  getMemoryUsage : α → Nat

/-- `ProbabilisticFilter::add` (lines 44-48): dispatches only if `m_impl` is present. -/
def pfAdd {α : Type} (ops : FilterImplOps α) (impl : Option α) (value : Str) : Option α :=
  match impl with
  | some i => some (ops.add i value)
  | none => none

/-- `ProbabilisticFilter::possibly_contains` (lines 50-52). -/
def pfPossiblyContains {α : Type} (ops : FilterImplOps α) (impl : Option α)
    (value : Str) : Bool :=
  match impl with
  | some i => ops.possiblyContains i value
  | none => false

/-- `ProbabilisticFilter::write_to_file` (lines 54-61): the bytes emitted. -/
def pfWriteToFile {α : Type} (ops : FilterImplOps α) (impl : Option α) : List Nat :=
  match impl with
  | some i => ops.writeToFile i
  | none => []

/-- `ProbabilisticFilter::is_empty` (lines 86-88). -/
def pfIsEmpty {α : Type} (ops : FilterImplOps α) (impl : Option α) : Bool :=
  match impl with
  | some i => ops.isEmpty i
  | none => true

/-- `ProbabilisticFilter::get_memory_usage` (lines 94-96). -/
def pfGetMemoryUsage {α : Type} (ops : FilterImplOps α) (impl : Option α) : Nat :=
  match impl with
  | some i => ops.getMemoryUsage i
  | none => 0

/-! ## Theorems -/

/-- Claim C2 (code bug witness): `SchemaIntColumnFilter::contains` returns `false`
for a column id absent from the persisted column map — the claimed conservative
`true` is what the string variant does, but not the integer variant.  Concretely,
for a filter holding only column `1` with value set `{5}`, the query
`contains(2, 7)` returns `false`, while the string variant in the same situation
returns `true`, and present-column membership behaves as claimed in both. -/
theorem c2_int_contains_absent_column_is_false :
    schemaIntContains ⟨[(1, [5])], [(1, 1)]⟩ 2 7 = false ∧
    schemaIntContains ⟨[(1, [5])], [(1, 1)]⟩ 1 5 = true ∧
    schemaIntContains ⟨[(1, [5])], [(1, 1)]⟩ 1 7 = false ∧
    schemaStrContains ⟨[(1, [[97]])], [(1, 1)]⟩ 2 [98] = true ∧
    schemaStrContains ⟨[(1, [[97]])], [(1, 1)]⟩ 1 [97] = true ∧
    schemaStrContains ⟨[(1, [[97]])], [(1, 1)]⟩ 1 [98] = false := by
  decide

/-- Claim C6: `NGramPrefixFilter::possibly_contains` returns `true` exactly when an
inner filter exists for the query's length class and — for queries shorter than the
n-gram length — the inner filter accepts the query itself, or otherwise every one
of the `|x| − n + 1` length-`n` substrings of the query passes the inner filter.
In particular an absent length class yields `false`. -/
theorem c6_ngram_query_characterisation (filterMap : List (Nat × (Str → Bool)))
    (n : Nat) (value : Str) :
    ngramPossiblyContains filterMap n value = true ↔
      ∃ f, alookup filterMap value.length = some f ∧
        ((value.length < n ∧ f value = true) ∨
         (n ≤ value.length ∧
           ∀ i, i + n ≤ value.length → f ((value.drop i).take n) = true)) := by
  unfold ngramPossiblyContains
  cases hlu : alookup filterMap value.length with
  | none => simp
  | some f =>
    by_cases hlen : value.length < n
    · simp only [if_pos hlen]
      constructor
      · intro hq
        exact ⟨f, rfl, Or.inl ⟨hlen, hq⟩⟩
      · rintro ⟨f', hf', hcase⟩
        cases hf'
        rcases hcase with ⟨_, hfv⟩ | ⟨hge, _⟩
        · exact hfv
        · omega
    · simp only [if_neg hlen, List.all_eq_true]
      constructor
      · intro hq
        refine ⟨f, rfl, Or.inr ⟨by omega, fun i hi => ?_⟩⟩
        exact hq i (List.mem_range.mpr (by omega))
      · rintro ⟨f', hf', hcase⟩
        cases hf'
        rcases hcase with ⟨hlt, _⟩ | ⟨_, hall⟩
        · omega
        · intro i hi
          exact hall i (by have := List.mem_range.mp hi; omega)

/-- Claim C10: every public operation of the `ProbabilisticFilter` wrapper is total
when the inner implementation is absent: `add` and `write_to_file` are no-ops,
`possibly_contains` is `false`, `is_empty` is `true`, `get_memory_usage` is `0` —
none of them touches the missing implementation. -/
theorem c10_wrapper_absent_impl_total {α : Type} (ops : FilterImplOps α) (value : Str) :
    pfAdd ops (none : Option α) value = none ∧
    pfPossiblyContains ops (none : Option α) value = false ∧
    pfWriteToFile ops (none : Option α) = [] ∧
    pfIsEmpty ops (none : Option α) = true ∧
    pfGetMemoryUsage ops (none : Option α) = 0 :=
  ⟨rfl, rfl, rfl, rfl, rfl⟩

/-- Claim C9 (counterexample): `compute_parameters` applies no clamping to the
range `[1, 20]`.  At the degenerate input `p = 0` the code returns
`bits_per_key = 100` and `num_hash_functions = round(100 · ln 2) = 69`, both
outside `[1, 20]` (instantiated at the rational value of the `double` `log(2.0)`;
the `p ≤ 0` branch never evaluates `log2`). -/
theorem c9_counterexample_no_clamp :
    (computeParameters (fun _ => 0) (6931471805599453 / 10 ^ 16) 0).1 = 100 ∧
    (computeParameters (fun _ => 0) (6931471805599453 / 10 ^ 16) 0).2 = 69 ∧
    ¬((computeParameters (fun _ => 0) (6931471805599453 / 10 ^ 16) 0).1 ≤ 20 ∧
      (computeParameters (fun _ => 0) (6931471805599453 / 10 ^ 16) 0).2 ≤ 20) := by
  have hbpk : computeBitsPerKey (fun _ => 0) (6931471805599453 / 10 ^ 16) 0 = 100 := by
    simp [computeBitsPerKey]
  have hround : round ((100 : ℚ) * (6931471805599453 / 10 ^ 16)) = 69 := by
    rw [round_eq]
    refine Int.floor_eq_iff.mpr ⟨?_, ?_⟩ <;> push_cast <;> norm_num
  have h1 : (computeParameters (fun _ => 0) (6931471805599453 / 10 ^ 16) 0).1 = 100 := by
    show computeBitsPerKey (fun _ => 0) (6931471805599453 / 10 ^ 16) 0 = 100
    exact hbpk
  have h2 : (computeParameters (fun _ => 0) (6931471805599453 / 10 ^ 16) 0).2 = 69 := by
    show computeNumHashFunctions (6931471805599453 / 10 ^ 16)
      (computeBitsPerKey (fun _ => 0) (6931471805599453 / 10 ^ 16) 0) = 69
    rw [hbpk]
    show max 1 (round ((100 : ℚ) * (6931471805599453 / 10 ^ 16))).toNat = 69
    rw [hround]
    decide
  refine ⟨h1, h2, ?_⟩
  rintro ⟨h20, _⟩
  rw [h1] at h20
  norm_num at h20

/-- Claim C9 (amended): `compute_parameters(p)` returns
`bits_per_key = -log2(p)/ln 2` for `p ∈ (0, 1)`, with the degenerate fallbacks
`100.0` for `p ≤ 0` and `0.1` for `p ≥ 1`, and
`num_hash_functions = round(bits_per_key · ln 2)` clamped below to `1`; no upper
clamp to `20` is applied (at `p ≤ 0` the result is `(100, 69)`).  `lnTwo` is the
value of the `double` computation `std::log(2.0)`. -/
theorem c9_policy_parameters (log2fn : ℚ → ℚ) (lnTwo : ℚ)
    (h1 : 693 / 1000 < lnTwo) (h2 : lnTwo < 694 / 1000) :
    (∀ p : ℚ, p ≤ 0 → computeParameters log2fn lnTwo p = (100, 69)) ∧
    (∀ p : ℚ, 1 ≤ p → computeParameters log2fn lnTwo p = (1 / 10, 1)) ∧
    (∀ p : ℚ, 0 < p → p < 1 →
      computeParameters log2fn lnTwo p =
        (-(log2fn p) / lnTwo,
          max 1 (round (-(log2fn p) / lnTwo * lnTwo)).toNat)) := by
  refine ⟨fun p hp => ?_, fun p hp => ?_, fun p hp0 hp1 => ?_⟩
  · have hbpk : computeBitsPerKey log2fn lnTwo p = 100 := by
      simp [computeBitsPerKey, hp]
    have hround : round ((100 : ℚ) * lnTwo) = 69 := by
      rw [round_eq]
      refine Int.floor_eq_iff.mpr ⟨?_, ?_⟩ <;> push_cast <;> linarith
    have hnh : computeNumHashFunctions lnTwo (computeBitsPerKey log2fn lnTwo p) = 69 := by
      rw [hbpk]
      show max 1 (round ((100 : ℚ) * lnTwo)).toNat = 69
      rw [hround]
      decide
    show (computeBitsPerKey log2fn lnTwo p,
      computeNumHashFunctions lnTwo (computeBitsPerKey log2fn lnTwo p)) = _
    rw [hnh, hbpk]
  · have hnot : ¬(p ≤ 0) := by linarith
    have hbpk : computeBitsPerKey log2fn lnTwo p = 1 / 10 := by
      simp [computeBitsPerKey, hnot, hp]
    have hround : round ((1 / 10 : ℚ) * lnTwo) = 0 := by
      rw [round_eq]
      refine Int.floor_eq_iff.mpr ⟨?_, ?_⟩ <;> push_cast <;> linarith
    have hnh : computeNumHashFunctions lnTwo (computeBitsPerKey log2fn lnTwo p) = 1 := by
      rw [hbpk]
      show max 1 (round ((1 / 10 : ℚ) * lnTwo)).toNat = 1
      rw [hround]
      decide
    show (computeBitsPerKey log2fn lnTwo p,
      computeNumHashFunctions lnTwo (computeBitsPerKey log2fn lnTwo p)) = _
    rw [hnh, hbpk]
  · have hnot0 : ¬(p ≤ 0) := by linarith
    have hnot1 : ¬(1 ≤ p) := by linarith
    have hbpk : computeBitsPerKey log2fn lnTwo p = -(log2fn p) / lnTwo := by
      simp [computeBitsPerKey, hnot0, hnot1]
    show (computeBitsPerKey log2fn lnTwo p,
      computeNumHashFunctions lnTwo (computeBitsPerKey log2fn lnTwo p)) = _
    rw [hbpk]
    rfl

/-! ### Bloom filter bit lemmas (no false negatives; used by claim C3) -/

theorem testBitArr_eq (bytes : List Nat) (i : Nat) :
    testBitArr bytes i = (bytes.getD (i / 8) 0).testBit (i % 8) := by
  unfold testBitArr
  rw [Nat.one_shiftLeft, Nat.and_two_pow]
  cases h : (bytes.getD (i / 8) 0).testBit (i % 8) <;> simp [h, Nat.pow_eq_zero]

theorem testBitArr_setBitArr_self (bytes : List Nat) (i : Nat) (h : i / 8 < bytes.length) :
    testBitArr (setBitArr bytes i) i = true := by
  rw [testBitArr_eq, setBitArr, List.getD_eq_getElem?_getD, List.getElem?_set_self h]
  simp [Nat.one_shiftLeft, Nat.testBit_lor, Nat.testBit_two_pow_self]

theorem testBitArr_setBitArr_mono (bytes : List Nat) (i j : Nat)
    (h : testBitArr bytes j = true) : testBitArr (setBitArr bytes i) j = true := by
  rw [testBitArr_eq] at h ⊢
  rw [setBitArr]
  by_cases hb : i / 8 = j / 8
  · by_cases hlt : i / 8 < bytes.length
    · rw [← hb, List.getD_eq_getElem?_getD, List.getElem?_set_self hlt]
      rw [← hb, List.getD_eq_getElem?_getD] at h
      simp [Nat.one_shiftLeft, Nat.testBit_lor, h]
    · rw [List.set_eq_of_length_le (le_of_not_lt hlt)]
      exact h
  · rw [List.getD_eq_getElem?_getD, List.getElem?_set_ne hb, ← List.getD_eq_getElem?_getD]
    exact h

theorem foldl_setBitArr_length (s : Nat) (l : List Nat) (arr : List Nat) :
    (l.foldl (fun a hv => setBitArr a (hv % s)) arr).length = arr.length := by
  induction l generalizing arr with
  | nil => rfl
  | cons x xs ih =>
    rw [List.foldl_cons, ih]
    simp [setBitArr, List.length_set]

theorem foldl_setBitArr_mono (s : Nat) (l : List Nat) (arr : List Nat) (j : Nat)
    (h : testBitArr arr j = true) :
    testBitArr (l.foldl (fun a hv => setBitArr a (hv % s)) arr) j = true := by
  induction l generalizing arr with
  | nil => exact h
  | cons x xs ih =>
    rw [List.foldl_cons]
    exact ih _ (testBitArr_setBitArr_mono arr _ j h)

theorem foldl_setBitArr_self (s : Nat) (l : List Nat) (arr : List Nat) (x : Nat)
    (hx : x ∈ l) (hs : 0 < s) (hcap : s ≤ 8 * arr.length) :
    testBitArr (l.foldl (fun a hv => setBitArr a (hv % s)) arr) (x % s) = true := by
  induction l generalizing arr with
  | nil => cases hx
  | cons y ys ih =>
    rw [List.foldl_cons]
    rcases List.mem_cons.mp hx with rfl | hmem
    · refine foldl_setBitArr_mono s ys _ _ (testBitArr_setBitArr_self arr (x % s) ?_)
      have hlt : x % s < s := Nat.mod_lt _ hs
      omega
    · refine ih _ hmem ?_
      show s ≤ 8 * (setBitArr arr (y % s)).length
      simpa [setBitArr, List.length_set] using hcap

theorem bloomAdd_bitArraySize (hf : Str → Nat) (f : BloomFilter) (v : Str) :
    (bloomAdd hf f v).bitArraySize = f.bitArraySize := rfl

theorem bloomAdd_numHashFunctions (hf : Str → Nat) (f : BloomFilter) (v : Str) :
    (bloomAdd hf f v).numHashFunctions = f.numHashFunctions := rfl

theorem bloomAdd_length (hf : Str → Nat) (f : BloomFilter) (v : Str) :
    (bloomAdd hf f v).bitArray.length = f.bitArray.length :=
  foldl_setBitArr_length f.bitArraySize _ f.bitArray

theorem bloomAdd_mono (hf : Str → Nat) (f : BloomFilter) (v : Str) (j : Nat)
    (h : testBitArr f.bitArray j = true) :
    testBitArr (bloomAdd hf f v).bitArray j = true :=
  foldl_setBitArr_mono f.bitArraySize _ f.bitArray j h

theorem foldl_bloomAdd_state (hf : Str → Nat) (keys : List Str) (f : BloomFilter) :
    (keys.foldl (bloomAdd hf) f).bitArraySize = f.bitArraySize ∧
    (keys.foldl (bloomAdd hf) f).numHashFunctions = f.numHashFunctions ∧
    (keys.foldl (bloomAdd hf) f).bitArray.length = f.bitArray.length := by
  induction keys generalizing f with
  | nil => exact ⟨rfl, rfl, rfl⟩
  | cons x xs ih =>
    rw [List.foldl_cons]
    refine ⟨(ih _).1.trans ?_, (ih _).2.1.trans ?_, (ih _).2.2.trans ?_⟩
    · rfl
    · rfl
    · exact bloomAdd_length hf f x

theorem foldl_bloomAdd_mono (hf : Str → Nat) (keys : List Str) (f : BloomFilter) (j : Nat)
    (h : testBitArr f.bitArray j = true) :
    testBitArr ((keys.foldl (bloomAdd hf) f).bitArray) j = true := by
  induction keys generalizing f with
  | nil => exact h
  | cons x xs ih =>
    rw [List.foldl_cons]
    exact ih _ (bloomAdd_mono hf f x j h)

/-- No false negatives of `BloomFilter`: folding `add` over a key list starting from
a zeroed (or any) filter whose bit count is positive and fits the byte array makes
`possibly_contains` answer `true` for every key of the list. -/
theorem bloom_build_no_false_negative (hf : Str → Nat) (keys : List Str)
    (f0 : BloomFilter) (v : Str) (hv : v ∈ keys) (hs : 0 < f0.bitArraySize)
    (hcap : f0.bitArraySize ≤ 8 * f0.bitArray.length) :
    bloomPossiblyContains hf (keys.foldl (bloomAdd hf) f0) v = true := by
  obtain ⟨l1, l2, rfl⟩ := List.append_of_mem hv
  rw [List.foldl_append, List.foldl_cons]
  have hst1 := foldl_bloomAdd_state hf l1 f0
  have hstF := foldl_bloomAdd_state hf l2 (bloomAdd hf (l1.foldl (bloomAdd hf) f0) v)
  set f1 := l1.foldl (bloomAdd hf) f0 with hf1
  set fF := l2.foldl (bloomAdd hf) (bloomAdd hf f1 v) with hfF
  have hsizeF : fF.bitArraySize = f0.bitArraySize := by
    rw [hstF.1, bloomAdd_bitArraySize, hst1.1]
  have hnhF : fF.numHashFunctions = f0.numHashFunctions := by
    rw [hstF.2.1, bloomAdd_numHashFunctions, hst1.2.1]
  have hlenF : fF.bitArray.length = f0.bitArray.length := by
    rw [hstF.2.2, bloomAdd_length, hst1.2.2]
  have hbits : ∀ hv0 ∈ generateHashValues hf f0.numHashFunctions v,
      testBitArr fF.bitArray (hv0 % f0.bitArraySize) = true := by
    intro hv0 hmem
    refine foldl_bloomAdd_mono hf l2 _ _ ?_
    show testBitArr ((generateHashValues hf f1.numHashFunctions v).foldl
      (fun arr hv => setBitArr arr (hv % f1.bitArraySize)) f1.bitArray)
      (hv0 % f0.bitArraySize) = true
    rw [hst1.2.1, hst1.1]
    refine foldl_setBitArr_self f0.bitArraySize _ _ hv0 hmem hs ?_
    rw [hst1.2.2]
    exact hcap
  rw [bloomPossiblyContains]
  have hne : fF.bitArray.isEmpty = false := by
    have : 0 < fF.bitArray.length := by omega
    cases harr : fF.bitArray with
    | nil => rw [harr] at this; simp at this
    | cons a as => rfl
  rw [hne]
  simp only [Bool.false_eq_true, if_false, List.all_eq_true]
  intro hv0 hmem
  rw [hnhF] at hmem
  rw [hsizeF]
  exact hbits hv0 hmem

theorem mem_hsInsert_self {α : Type} [DecidableEq α] (l : List α) (x : α) :
    x ∈ hsInsert l x := by
  unfold hsInsert
  by_cases h : x ∈ l <;> simp [h]

theorem mem_hsInsert_of_mem {α : Type} [DecidableEq α] (l : List α) (x y : α)
    (h : y ∈ l) : y ∈ hsInsert l x := by
  unfold hsInsert
  by_cases hx : x ∈ l <;> simp [hx, h]

/-- Run invariant of the dictionary writer: the bloom-tracking set only grows, the
flag stays set, and every value for which `add_entry` created a new entry ends up
in `m_bloom_filter_values` — even if the value is later evicted from
`m_value_to_id`. -/
theorem vdwRun_bloom_values (events : List DictEvent) (w0 w : VarDictWriter)
    (created : List Str) (hub : w0.useBloomFilter = true)
    (hrun : vdwRun events w0 = some (w, created)) :
    w.useBloomFilter = true ∧
    (∀ x ∈ w0.bloomFilterValues, x ∈ w.bloomFilterValues) ∧
    (∀ x ∈ created, x ∈ w.bloomFilterValues) := by
  induction events generalizing w0 w created with
  | nil =>
    rw [vdwRun] at hrun
    cases hrun
    exact ⟨hub, fun x hx => hx, fun x hx => by cases hx⟩
  | cons e rest ih =>
    cases e with
    | addEntry v =>
      rw [vdwRun] at hrun
      cases hlook : vdwAddEntry w0 v with
      | none =>
        rw [hlook, Option.none_bind] at hrun
        cases hrun
      | some r =>
        rw [hlook, Option.some_bind] at hrun
        cases hrest : vdwRun rest r.1 with
        | none =>
          rw [hrest, Option.map_none'] at hrun
          cases hrun
        | some rr =>
          rw [hrest, Option.map_some'] at hrun
          cases hrun
          -- analyse add_entry to learn the intermediate state r.1
          rw [vdwAddEntry] at hlook
          cases hl : alookup w0.valueToId v with
          | some id0 =>
            rw [hl] at hlook
            cases hlook
            obtain ⟨h1, h2, h3⟩ := ih w0 rr.1 rr.2 hub hrest
            refine ⟨h1, h2, fun x hx => h3 x ?_⟩
            simpa using hx
          | none =>
            rw [hl] at hlook
            by_cases hmax : w0.maxId < w0.nextId
            · rw [if_pos hmax] at hlook
              cases hlook
            · rw [if_neg hmax] at hlook
              cases hlook
              have hub1 : ({ w0 with
                  valueToId := w0.valueToId ++ [(v, w0.nextId)],
                  nextId := w0.nextId + 1,
                  bloomFilterValues :=
                    if w0.useBloomFilter then hsInsert w0.bloomFilterValues v
                    else w0.bloomFilterValues } : VarDictWriter).useBloomFilter = true := hub
              obtain ⟨h1, h2, h3⟩ := ih _ rr.1 rr.2 hub1 hrest
              have hmemIns : ∀ x ∈ w0.bloomFilterValues, x ∈ rr.1.bloomFilterValues := by
                intro x hx
                refine h2 x ?_
                show x ∈ if w0.useBloomFilter then hsInsert w0.bloomFilterValues v
                  else w0.bloomFilterValues
                rw [hub, if_pos rfl]
                exact mem_hsInsert_of_mem _ v x hx
              refine ⟨h1, hmemIns, fun x hx => ?_⟩
              rcases List.mem_cons.mp (by simpa using hx) with rfl | hmem
              · refine h2 x ?_
                show x ∈ if w0.useBloomFilter then hsInsert w0.bloomFilterValues x
                  else w0.bloomFilterValues
                rw [hub, if_pos rfl]
                exact mem_hsInsert_self _ x
              · exact h3 x hmem
    | evict v =>
      rw [vdwRun] at hrun
      have hub1 : (vdwEvict w0 v).useBloomFilter = true := hub
      obtain ⟨h1, h2, h3⟩ := ih _ w created hub1 hrun
      exact ⟨h1, fun x hx => h2 x hx, h3⟩

/-- Claim C3: when a `VariableDictionaryWriter` is opened with the bloom filter
enabled, the filter produced by `write_bloom_filter` is built over every value for
which `add_entry` created a new dictionary entry since opening — including values
later removed from the in-memory `value_to_id` map — and each such value `v`
satisfies `possibly_contains(v) = true` on the written filter. -/
theorem c3_dictionary_bloom_no_false_negatives (events : List DictEvent) (maxId : Nat)
    (hf : Str → Nat) (sizing : Nat → Nat × Nat) (w : VarDictWriter) (created : List Str)
    (v : Str) (hrun : vdwRun events (vdwOpenWithBloomFilter maxId) = some (w, created))
    (hv : v ∈ created) :
    ∃ bf, vdwWriteBloomFilter hf sizing w = some bf ∧
      bloomPossiblyContains hf bf v = true := by
  obtain ⟨hub, _, hmem⟩ := vdwRun_bloom_values events _ w created rfl hrun
  have hvmem : v ∈ w.bloomFilterValues := hmem v hv
  have hne : w.bloomFilterValues.length ≠ 0 := by
    intro h0
    rw [List.length_eq_zero] at h0
    rw [h0] at hvmem
    cases hvmem
  refine ⟨_, by rw [vdwWriteBloomFilter, if_pos hub], ?_⟩
  rw [bloomInit, if_neg hne]
  refine bloom_build_no_false_negative hf w.bloomFilterValues _ v hvmem ?_ ?_
  · show 0 < max (sizing w.bloomFilterValues.length).1 8
    omega
  · show max (sizing w.bloomFilterValues.length).1 8 ≤
      8 * (List.replicate ((max (sizing w.bloomFilterValues.length).1 8 + 7) / 8) (0 : Nat)).length
    rw [List.length_replicate]
    omega

/-- Claim C3 witness: one value added then evicted from the in-memory map still
passes the written filter. -/
theorem c3_dictionary_bloom_no_false_negatives_witness :
    ∃ bf, vdwWriteBloomFilter (fun _ => 0) (fun n => (10 * n, 2))
        ⟨true, [], 1, 5, [[104]]⟩ = some bf ∧
      bloomPossiblyContains (fun _ => 0) bf [104] = true :=
  c3_dictionary_bloom_no_false_negatives
    [DictEvent.addEntry [104], DictEvent.evict [104]] 5 (fun _ => 0)
    (fun n => (10 * n, 2)) ⟨true, [], 1, 5, [[104]]⟩ [[104]] [104] (by decide) (by decide)

/-! ### Little-endian round-trip lemmas -/

theorem leVal_append (a b : List Nat) :
    leVal (a ++ b) = leVal a + 256 ^ a.length * leVal b := by
  induction a with
  | nil => simp [leVal]
  | cons x xs ih => simp [leVal, ih, pow_succ]; ring

theorem length_leBytes (n v : Nat) : (leBytes n v).length = n := by
  simp [leBytes]

theorem leVal_leBytes (n v : Nat) : leVal (leBytes n v) = v % 256 ^ n := by
  induction n with
  | zero => simp [leBytes, leVal, Nat.mod_one]
  | succ n ih =>
    rw [leBytes, List.range_succ, List.map_append]
    rw [leVal_append]
    have : leVal ((List.range n).map fun i => v / 256 ^ i % 256) = v % 256 ^ n := ih
    simp only [List.map_cons, List.map_nil, this, List.length_map, List.length_range]
    rw [Nat.mod_pow_succ]
    simp [leVal]

theorem readBytes_append (a b : List Nat) : readBytes a.length (a ++ b) = some (a, b) := by
  simp [readBytes, List.take_left, List.drop_left]

theorem readBytes_append_of_length (n : Nat) (a b : List Nat) (h : a.length = n) :
    readBytes n (a ++ b) = some (a, b) := by
  subst h
  exact readBytes_append a b

theorem readLE_leBytes (n v : Nat) (rest : List Nat) (h : v < 256 ^ n) :
    readLE n (leBytes n v ++ rest) = some (v, rest) := by
  rw [readLE, readBytes_append_of_length n _ rest (length_leBytes n v)]
  simp [leVal_leBytes, Nat.mod_eq_of_lt h]

/-- Claim C5: serializing a `BloomFilter` with `write_to_file` and reading the bytes
back through `ProbabilisticFilter::read_from_file` (which consumes the kind byte and
dispatches on it) restores the exact filter state, so `possibly_contains` answers
the same on every query.  The size fields fit their machine-integer widths. -/
theorem c5_bloom_serialization_roundtrip (f : BloomFilter) (rest : List Nat)
    (h1 : f.numHashFunctions < 2 ^ 32) (h2 : f.bitArraySize < 2 ^ 64)
    (h3 : f.bitArray.length < 2 ^ 64) :
    probReadFromFile (bloomWriteToFile f ++ rest) = some (f, rest) ∧
    ∀ (hf : Str → Nat) (q : Str),
      ∃ g, probReadFromFile (bloomWriteToFile f ++ rest) = some (g, rest) ∧
        bloomPossiblyContains hf g q = bloomPossiblyContains hf f q := by
  have h1' : f.numHashFunctions < 256 ^ 4 := by
    calc f.numHashFunctions < 2 ^ 32 := h1
    _ = 256 ^ 4 := by norm_num
  have h2' : f.bitArraySize < 256 ^ 8 := by
    calc f.bitArraySize < 2 ^ 64 := h2
    _ = 256 ^ 8 := by norm_num
  have h3' : f.bitArray.length < 256 ^ 8 := by
    calc f.bitArray.length < 2 ^ 64 := h3
    _ = 256 ^ 8 := by norm_num
  have hmain : probReadFromFile (bloomWriteToFile f ++ rest) = some (f, rest) := by
    have e1 : bloomWriteToFile f ++ rest =
        1 :: (leBytes 4 f.numHashFunctions ++ (leBytes 8 f.bitArraySize ++
          (leBytes 8 f.bitArray.length ++ (f.bitArray ++ rest)))) := by
      simp [bloomWriteToFile, u32le, u64le]
    rw [e1]
    show bloomReadFromFile (leBytes 4 f.numHashFunctions ++ (leBytes 8 f.bitArraySize ++
      (leBytes 8 f.bitArray.length ++ (f.bitArray ++ rest)))) = some (f, rest)
    rw [bloomReadFromFile, readLE_leBytes 4 f.numHashFunctions _ h1', Option.some_bind,
      readLE_leBytes 8 f.bitArraySize _ h2', Option.some_bind,
      readLE_leBytes 8 f.bitArray.length _ h3', Option.some_bind,
      readBytes_append_of_length f.bitArray.length f.bitArray rest rfl, Option.map_some']
  exact ⟨hmain, fun hf q => ⟨f, hmain, rfl⟩⟩

/-- Claim C5 witness: a concrete round trip. -/
theorem c5_bloom_serialization_roundtrip_witness :
    probReadFromFile (bloomWriteToFile ⟨[5, 0], 16, 2⟩ ++ [9]) = some (⟨[5, 0], 16, 2⟩, [9]) :=
  (c5_bloom_serialization_roundtrip ⟨[5, 0], 16, 2⟩ [9] (by norm_num) (by norm_num)
    (by norm_num)).1

/-- Claim C7 (counterexample): a `PrefixSuffixFilter` built from the empty key set
answers `false` to the infix pattern `"*a*"` (bytes `[42, 97, 42]`), because
`possibly_contains` returns `false` whenever `is_empty()` holds, before the infix
case is reached — refuting the claim's "including one built from an empty key set". -/
theorem c7_counterexample_empty_filter_infix :
    psPossiblyContains (fun _ => 0)
      (psFromKeySet (fun _ => 0) (fun n => (6 * n, 3)) []) [42, 97, 42] = false := rfl

/-- Claim C7 (amended): for every `PrefixSuffixFilter` that is not empty
(`is_empty() = false`), a query whose first and last characters are both `'*'`
returns `true`; an empty filter instead returns `false` for every query. -/
theorem c7_nonempty_infix_query_returns_true (hf : Str → Nat) (f : PrefixSuffixFilter)
    (value : Str) (hne : psIsEmpty f = false) (hfirst : value.head? = some 42)
    (hlast : value.getLast? = some 42) :
    psPossiblyContains hf f value = true := by
  cases value with
  | nil => cases hfirst
  | cons c cs =>
    have hc : c = 42 := by
      simpa using hfirst
    subst hc
    simp [psPossiblyContains, hne, hlast]

/-- Claim C7 amended-theorem witness: a filter built from the key `"abc"` is
nonempty and accepts the infix pattern `"**"`. -/
theorem c7_nonempty_infix_query_returns_true_witness :
    psPossiblyContains (fun _ => 0)
      (psFromKeySet (fun _ => 0) (fun n => (6 * n, 3)) [[97, 98, 99]]) [42, 42] = true :=
  c7_nonempty_infix_query_returns_true (fun _ => 0) _ [42, 42] (by decide) rfl rfl

/-- Claim C8: each concrete filter implementation constructed from an empty key set
is empty (`is_empty() = true`) and `possibly_contains` answers `false` for every
query: `BloomFilter`, `BinaryFuseFilter` (default-initialised, construction
skipped), `NGramPrefixFilter` (no length classes), and `PrefixSuffixFilter`
(inner Bloom filters of an empty key set). -/
theorem c8_empty_key_set_filters (hf : Str → Nat) (sizing : Nat → Nat × Nat)
    (nDerive : List (Nat × List Str) → Nat) (innerBuild : Nat → List Str → (Str → Bool))
    (fpBits seg : Nat) (x : Str) :
    (bloomIsEmpty (bloomFromKeySet hf sizing []) = true ∧
      bloomPossiblyContains hf (bloomFromKeySet hf sizing []) x = false) ∧
    (fuseFromKeySet fpBits seg [] = some ⟨[], 0, 0, 8, 0⟩ ∧
      fuseIsEmpty ⟨[], 0, 0, 8, 0⟩ = true ∧
      fusePossiblyContains ⟨[], 0, 0, 8, 0⟩ x = false) ∧
    (ngramIsEmpty (ngramFromKeySet nDerive innerBuild []).1 = true ∧
      ngramPossiblyContains (ngramFromKeySet nDerive innerBuild []).1
        (ngramFromKeySet nDerive innerBuild []).2 x = false) ∧
    (psIsEmpty (psFromKeySet hf sizing []) = true ∧
      psPossiblyContains hf (psFromKeySet hf sizing []) x = false) :=
  ⟨⟨rfl, rfl⟩, ⟨rfl, rfl, rfl⟩, ⟨rfl, rfl⟩, ⟨rfl, rfl⟩⟩

/-! ### Bit-slice arithmetic (claim C1 infrastructure) -/

theorem two_pow_pos' (n : Nat) : 0 < 2 ^ n := Nat.pos_pow_of_pos n (by norm_num)

theorem getBits_zero (j w : Nat) : getBits 0 j w = 0 := by
  simp [getBits]

theorem getBits_lt (N j w : Nat) : getBits N j w < 2 ^ w :=
  Nat.mod_lt _ (two_pow_pos' w)

theorem setBitsN_low_lt (N j w v : Nat) :
    N % 2 ^ j + v % 2 ^ w * 2 ^ j < 2 ^ (j + w) := by
  have h1 : N % 2 ^ j < 2 ^ j := Nat.mod_lt _ (two_pow_pos' j)
  have h2 : v % 2 ^ w < 2 ^ w := Nat.mod_lt _ (two_pow_pos' w)
  have h3 : v % 2 ^ w * 2 ^ j ≤ (2 ^ w - 1) * 2 ^ j :=
    Nat.mul_le_mul_right _ (by omega)
  have h4 : 2 ^ j + (2 ^ w - 1) * 2 ^ j = 2 ^ (j + w) := by
    obtain ⟨b, hb⟩ : ∃ b, 2 ^ w = b + 1 :=
      ⟨2 ^ w - 1, by have := two_pow_pos' w; omega⟩
    rw [pow_add, hb]
    simp only [Nat.add_sub_cancel]
    ring
  calc N % 2 ^ j + v % 2 ^ w * 2 ^ j < 2 ^ j + (2 ^ w - 1) * 2 ^ j :=
        Nat.add_lt_add_of_lt_of_le h1 h3
  _ = 2 ^ (j + w) := h4

theorem getBits_setBitsN_self (N j w v : Nat) :
    getBits (setBitsN N j w v) j w = v % 2 ^ w := by
  rw [getBits, setBitsN]
  have e1 : N % 2 ^ j + v % 2 ^ w * 2 ^ j + N / 2 ^ (j + w) * 2 ^ (j + w) =
      N % 2 ^ j + (v % 2 ^ w + N / 2 ^ (j + w) * 2 ^ w) * 2 ^ j := by
    rw [pow_add]
    ring
  rw [e1, Nat.add_mul_div_right _ _ (two_pow_pos' j),
    Nat.div_eq_of_lt (Nat.mod_lt _ (two_pow_pos' j))]
  rw [Nat.zero_add, Nat.add_mul_mod_self_right, Nat.mod_mod_of_dvd _ dvd_rfl]

theorem setBitsN_mod_low (N j w v : Nat) : setBitsN N j w v % 2 ^ j = N % 2 ^ j := by
  rw [setBitsN]
  have e1 : N % 2 ^ j + v % 2 ^ w * 2 ^ j + N / 2 ^ (j + w) * 2 ^ (j + w) =
      N % 2 ^ j + (v % 2 ^ w + N / 2 ^ (j + w) * 2 ^ w) * 2 ^ j := by
    rw [pow_add]
    ring
  rw [e1, Nat.add_mul_mod_self_right, Nat.mod_mod_of_dvd _ dvd_rfl]

theorem setBitsN_div_high (N j w v : Nat) :
    setBitsN N j w v / 2 ^ (j + w) = N / 2 ^ (j + w) := by
  rw [setBitsN, Nat.add_mul_div_right _ _ (two_pow_pos' (j + w)),
    Nat.div_eq_of_lt (setBitsN_low_lt N j w v), Nat.zero_add]

theorem getBits_depends_mod (M j w : Nat) :
    getBits M j w = M % 2 ^ (j + w) / 2 ^ j := by
  rw [getBits, pow_add, Nat.mod_mul_right_div_self]

theorem getBits_setBitsN_low (N j w v j' w' : Nat) (h : j' + w' ≤ j) :
    getBits (setBitsN N j w v) j' w' = getBits N j' w' := by
  rw [getBits_depends_mod, getBits_depends_mod N]
  have hm : setBitsN N j w v % 2 ^ (j' + w') = N % 2 ^ (j' + w') := by
    have hd : (2 : Nat) ^ (j' + w') ∣ 2 ^ j := pow_dvd_pow 2 h
    rw [← Nat.mod_mod_of_dvd (setBitsN N j w v) hd, setBitsN_mod_low,
      Nat.mod_mod_of_dvd N hd]
  rw [hm]

theorem getBits_setBitsN_high (N j w v j' w' : Nat) (h : j + w ≤ j') :
    getBits (setBitsN N j w v) j' w' = getBits N j' w' := by
  have e : ∀ K : Nat, K / 2 ^ j' = K / 2 ^ (j + w) / 2 ^ (j' - (j + w)) := by
    intro K
    rw [Nat.div_div_eq_div_mul, ← pow_add]
    congr 2
    omega
  rw [getBits, getBits, e, e N, setBitsN_div_high]

theorem getBits_setBitsN_slot_ne (N w p p' v : Nat) (hne : p ≠ p') :
    getBits (setBitsN N (p * w) w v) (p' * w) w = getBits N (p' * w) w := by
  cases w with
  | zero => simp [getBits, Nat.mod_one]
  | succ w0 =>
    rcases Nat.lt_or_ge p p' with hlt | hge
    · refine getBits_setBitsN_high N _ _ v _ _ ?_
      calc p * (w0 + 1) + (w0 + 1) = (p + 1) * (w0 + 1) := by ring
      _ ≤ p' * (w0 + 1) := Nat.mul_le_mul_right _ hlt
    · have hlt : p' < p := by omega
      refine getBits_setBitsN_low N _ _ v _ _ ?_
      calc p' * (w0 + 1) + (w0 + 1) = (p' + 1) * (w0 + 1) := by ring
      _ ≤ p * (w0 + 1) := Nat.mul_le_mul_right _ hlt

theorem lor_shiftLeft_eq_add (a b k : Nat) (ha : a < 2 ^ k) :
    a ||| b <<< k = a + b * 2 ^ k := by
  apply Nat.eq_of_testBit_eq
  intro i
  rw [Nat.testBit_lor, Nat.testBit_shiftLeft]
  by_cases hik : k ≤ i
  · have hab : a.testBit i = false :=
      Nat.testBit_eq_false_of_lt
        (lt_of_lt_of_le ha (Nat.pow_le_pow_right (by norm_num) hik))
    have h1 : (a + b * 2 ^ k) / 2 ^ i = b / 2 ^ (i - k) := by
      rw [show (2 : Nat) ^ i = 2 ^ k * 2 ^ (i - k) by
        rw [← pow_add]
        congr 1
        omega]
      rw [← Nat.div_div_eq_div_mul, Nat.add_mul_div_right _ _ (two_pow_pos' k),
        Nat.div_eq_of_lt ha, Nat.zero_add]
    rw [hab, Bool.false_or, Nat.testBit_to_div_mod, Nat.testBit_to_div_mod, h1]
    simp [hik]
  · have h1 : (a + b * 2 ^ k) / 2 ^ i = a / 2 ^ i + b * 2 ^ (k - i) := by
      rw [show b * 2 ^ k = b * 2 ^ (k - i) * 2 ^ i by
        rw [mul_assoc, ← pow_add]
        congr 2
        omega]
      exact Nat.add_mul_div_right _ _ (two_pow_pos' i)
    have h2 : (a / 2 ^ i + b * 2 ^ (k - i)) % 2 = a / 2 ^ i % 2 := by
      rw [show b * 2 ^ (k - i) = b * 2 ^ (k - i - 1) * 2 by
        rw [mul_assoc, ← pow_succ]
        congr 2
        omega]
      exact Nat.add_mul_mod_self_right _ _ _
    conv_rhs => rw [Nat.testBit_to_div_mod]
    rw [h1, h2]
    simp [Nat.testBit_to_div_mod, show ¬(i ≥ k) from hik]

theorem testBit_div_pow (x k j : Nat) :
    (x / 2 ^ k).testBit j = x.testBit (k + j) := by
  rw [← Nat.shiftRight_eq_div_pow, Nat.testBit_shiftRight]

/-- The clear-then-or bit write of `set_filter_value`, as arithmetic: with a
`W`-bit window `x`, clearing bits `[off, off+w)` via the complement mask and
or-ing in `v & (2^w - 1)` replaces that bit range of `x` by `v`. -/
theorem clear_set_bits (W x off w v : Nat) (hx : x < 2 ^ W) (hw : off + w ≤ W) :
    x &&& (2 ^ W - 1 ^^^ (2 ^ w - 1) <<< off) ||| (v &&& (2 ^ w - 1)) <<< off =
      x % 2 ^ off + v % 2 ^ w * 2 ^ off + x / 2 ^ (off + w) * 2 ^ (off + w) := by
  have hvm : v &&& (2 ^ w - 1) = v % 2 ^ w := Nat.and_pow_two_sub_one_eq_mod v w
  have hlow : x % 2 ^ off + v % 2 ^ w * 2 ^ off < 2 ^ (off + w) := setBitsN_low_lt x off w v
  have hrhs : x % 2 ^ off + v % 2 ^ w * 2 ^ off + x / 2 ^ (off + w) * 2 ^ (off + w) =
      (x % 2 ^ off ||| (v % 2 ^ w) <<< off) ||| (x / 2 ^ (off + w)) <<< (off + w) := by
    rw [lor_shiftLeft_eq_add _ _ _ (Nat.mod_lt _ (two_pow_pos' off))]
    rw [lor_shiftLeft_eq_add _ _ _ hlow]
  rw [hvm, hrhs]
  apply Nat.eq_of_testBit_eq
  intro i
  simp only [Nat.testBit_lor, Nat.testBit_land, Nat.testBit_xor,
    Nat.testBit_two_pow_sub_one, Nat.testBit_shiftLeft, Nat.testBit_mod_two_pow,
    testBit_div_pow]
  by_cases h1 : i < off
  · have h2 : ¬(off ≤ i) := by omega
    have h3 : i < W := by omega
    have h2w : ¬(off + w ≤ i) := by omega
    simp [h1, h2, h3, h2w, ge_iff_le]
  · by_cases h4 : i < off + w
    · have h5 : off ≤ i := by omega
      have h6 : i < W := by omega
      have h7 : i - off < w := by omega
      have h2w : ¬(off + w ≤ i) := by omega
      simp [h1, h4, h5, h6, h7, h2w, ge_iff_le, Nat.testBit_mod_two_pow]
    · by_cases h8 : i < W
      · have h5 : off ≤ i := by omega
        have h7 : ¬(i - off < w) := by omega
        have h9 : off + w ≤ i := by omega
        have h10 : off + w + (i - (off + w)) = i := by omega
        simp [h1, h4, h5, h7, h8, h9, h10, ge_iff_le]
      · have hxb : x.testBit i = false :=
          Nat.testBit_eq_false_of_lt
            (lt_of_lt_of_le hx (Nat.pow_le_pow_right (by norm_num) (by omega)))
        have h5 : off ≤ i := by omega
        have h9 : off + w ≤ i := by omega
        have h10 : off + w + (i - (off + w)) = i := by omega
        simp [h1, h4, h5, h8, h9, h10, hxb, ge_iff_le]

/-! ### Byte buffers as naturals (claim C1 infrastructure) -/

theorem pow256_eq (k : Nat) : (256 : Nat) ^ k = 2 ^ (8 * k) := by
  rw [show (256 : Nat) = 2 ^ 8 from by norm_num, ← pow_mul]

theorem bytesWF_take (b : List Nat) (n : Nat) (h : BytesWF b) : BytesWF (b.take n) :=
  fun x hx => h x (List.mem_of_mem_take hx)

theorem bytesWF_drop (b : List Nat) (n : Nat) (h : BytesWF b) : BytesWF (b.drop n) :=
  fun x hx => h x (List.mem_of_mem_drop hx)

theorem bytesWF_append (a b : List Nat) (ha : BytesWF a) (hb : BytesWF b) :
    BytesWF (a ++ b) := by
  intro x hx
  rcases List.mem_append.mp hx with h | h
  · exact ha x h
  · exact hb x h

theorem bytesWF_replicate (n : Nat) : BytesWF (List.replicate n 0) := by
  intro x hx
  rw [List.eq_of_mem_replicate hx]
  norm_num

theorem bytesWF_leBytes (n v : Nat) : BytesWF (leBytes n v) := by
  intro x hx
  rw [leBytes] at hx
  obtain ⟨i, _, rfl⟩ := List.mem_map.mp hx
  exact Nat.mod_lt _ (by norm_num)

theorem leVal_lt_pow (b : List Nat) (h : BytesWF b) : leVal b < 256 ^ b.length := by
  induction b with
  | nil => simp [leVal]
  | cons x xs ih =>
    rw [leVal, List.length_cons, pow_succ]
    have hx : x < 256 := h x (by simp)
    have hxs : leVal xs < 256 ^ xs.length := ih fun y hy => h y (by simp [hy])
    calc x + 256 * leVal xs < 256 + 256 * leVal xs := by omega
    _ = 256 * (leVal xs + 1) := by ring
    _ ≤ 256 * 256 ^ xs.length := by
        exact Nat.mul_le_mul_left _ (by omega)
    _ = 256 ^ xs.length * 256 := by ring

theorem leVal_drop (b : List Nat) (k : Nat) (h : BytesWF b) :
    leVal (b.drop k) = leVal b / 256 ^ k := by
  by_cases hk : k ≤ b.length
  · have hsplit : b = b.take k ++ b.drop k := (List.take_append_drop k b).symm
    have hlen : (b.take k).length = k := by
      rw [List.length_take]
      omega
    have hval : leVal b = leVal (b.take k) + 256 ^ k * leVal (b.drop k) := by
      conv_lhs => rw [hsplit]
      rw [leVal_append, hlen]
    have htk : leVal (b.take k) < 256 ^ k := by
      have := leVal_lt_pow (b.take k) (bytesWF_take b k h)
      rwa [hlen] at this
    rw [hval, Nat.add_mul_div_left _ _ (by positivity), Nat.div_eq_of_lt htk,
      Nat.zero_add]
  · rw [List.drop_eq_nil_of_le (by omega)]
    have hlt : leVal b < 256 ^ k :=
      lt_of_lt_of_le (leVal_lt_pow b h) (Nat.pow_le_pow_right (by norm_num) (by omega))
    rw [Nat.div_eq_of_lt hlt]
    rfl

theorem leVal_take (b : List Nat) (r : Nat) (h : BytesWF b) :
    leVal (b.take r) = leVal b % 256 ^ r := by
  by_cases hr : r ≤ b.length
  · have hsplit : b = b.take r ++ b.drop r := (List.take_append_drop r b).symm
    have hlen : (b.take r).length = r := by
      rw [List.length_take]
      omega
    have hval : leVal b = leVal (b.take r) + 256 ^ r * leVal (b.drop r) := by
      conv_lhs => rw [hsplit]
      rw [leVal_append, hlen]
    have htk : leVal (b.take r) < 256 ^ r := by
      have := leVal_lt_pow (b.take r) (bytesWF_take b r h)
      rwa [hlen] at this
    rw [hval, Nat.add_mul_mod_self_left, Nat.mod_eq_of_lt htk]
  · rw [List.take_of_length_le (by omega)]
    have hlt : leVal b < 256 ^ r :=
      lt_of_lt_of_le (leVal_lt_pow b h) (Nat.pow_le_pow_right (by norm_num) (by omega))
    rw [Nat.mod_eq_of_lt hlt]

theorem leVal_take_succ (xs : List Nat) (r : Nat) :
    leVal (xs.take (r + 1)) = leVal (xs.take r) + 256 ^ r * xs.getD r 0 := by
  by_cases hr : r < xs.length
  · rw [List.take_succ]
    have hget : xs[r]? = some xs[r] := List.getElem?_eq_getElem hr
    rw [hget]
    show leVal (xs.take r ++ [xs[r]]) = _
    rw [leVal_append, List.length_take]
    have : min r xs.length = r := by omega
    rw [this, List.getD_eq_getElem?_getD, hget]
    show leVal (xs.take r) + 256 ^ r * (xs[r] + 256 * leVal []) = _
    show leVal (xs.take r) + 256 ^ r * (xs[r] + 256 * 0) = _
    rfl
  · have h1 : xs.take (r + 1) = xs := List.take_of_length_le (by omega)
    have h2 : xs.take r = xs := List.take_of_length_le (by omega)
    have h3 : xs.getD r 0 = 0 := by
      rw [List.getD_eq_getElem?_getD, List.getElem?_eq_none (by omega)]
      rfl
    rw [h1, h2, h3]
    ring

theorem getD_eq_leVal (b : List Nat) (i : Nat) (h : BytesWF b) :
    b.getD i 0 = leVal b / 2 ^ (8 * i) % 2 ^ 8 := by
  rw [← pow256_eq, show (2 : Nat) ^ 8 = 256 from by norm_num, ← leVal_drop b i h]
  cases hd : b.drop i with
  | nil =>
    have hz : b.getD i 0 = 0 := by
      rw [List.getD_eq_getElem?_getD, List.getElem?_eq_none]
      · rfl
      · have h0 := congrArg List.length hd
        rw [List.length_drop, List.length_nil] at h0
        omega
    rw [hz]
    rfl
  | cons x rest =>
    have hx : b.getD i 0 = x := by
      rw [List.getD_eq_getElem?_getD, show b[i]? = (b.drop i)[0]? from by
        rw [List.getElem?_drop, Nat.add_zero], hd]
      simp
    have hwx : x < 256 := by
      refine h x ?_
      have : x ∈ b.drop i := by
        rw [hd]
        simp
      exact List.mem_of_mem_drop this
    rw [hx]
    show x = (x + 256 * leVal rest) % 256
    rw [Nat.add_mul_mod_self_left, Nat.mod_eq_of_lt hwx]

theorem or_fold_slice (bytes : List Nat) (bi : Nat) (h : BytesWF bytes) (r : Nat) :
    (List.range r).foldl (fun acc i => acc ||| bytes.getD (bi + i) 0 <<< (8 * i)) 0 =
      leVal ((bytes.drop bi).take r) := by
  induction r with
  | zero => rfl
  | succ r ih =>
    rw [List.range_succ, List.foldl_append, ih, List.foldl_cons, List.foldl_nil]
    have hslice : BytesWF ((bytes.drop bi).take r) :=
      bytesWF_take _ r (bytesWF_drop bytes bi h)
    have hlt : leVal ((bytes.drop bi).take r) < 2 ^ (8 * r) := by
      have h1 := leVal_lt_pow _ hslice
      have h2 : (256 : Nat) ^ ((bytes.drop bi).take r).length ≤ 256 ^ r := by
        refine Nat.pow_le_pow_right (by norm_num) ?_
        rw [List.length_take]
        omega
      rw [← pow256_eq]
      omega
    rw [lor_shiftLeft_eq_add _ _ _ hlt, leVal_take_succ, pow256_eq]
    have hgd : (bytes.drop bi).getD r 0 = bytes.getD (bi + r) 0 := by
      rw [List.getD_eq_getElem?_getD, List.getD_eq_getElem?_getD, List.getElem?_drop]
    rw [hgd]
    ring

theorem getFilterValue_eq_getBits (bytes : List Nat) (w pos : Nat) (h : BytesWF bytes)
    (hw : w ≤ 32) (hfit : pos * w + w ≤ 8 * bytes.length) :
    getFilterValue bytes w pos = getBits (leVal bytes) (pos * w) w := by
  rw [getFilterValue]
  set j := pos * w with hj
  set bi := j / 8 with hbi
  set off := j % 8 with hoff
  set r := min (bytes.length - bi) 5 with hr
  have hoff8 : off < 8 := Nat.mod_lt _ (by norm_num)
  have hbil : bi ≤ bytes.length := by
    have : j ≤ 8 * bytes.length := by omega
    omega
  have hoffw : off + w ≤ 8 * r := by
    have hdm : 8 * bi + off = j := by
      rw [hbi, hoff]
      omega
    rcases Nat.lt_or_ge (bytes.length - bi) 5 with hc | hc
    · have : r = bytes.length - bi := by omega
      omega
    · have : r = 5 := by omega
      omega
  rw [or_fold_slice bytes bi h r]
  have hdropwf : BytesWF (bytes.drop bi) := bytesWF_drop bytes bi h
  rw [leVal_take _ r hdropwf, leVal_drop bytes bi h, pow256_eq, pow256_eq]
  rw [Nat.shiftRight_eq_div_pow, Nat.and_pow_two_sub_one_eq_mod]
  have e1 : leVal bytes / 2 ^ (8 * bi) % 2 ^ (8 * r) / 2 ^ off =
      leVal bytes / 2 ^ (8 * bi) / 2 ^ off % 2 ^ (8 * r - off) := by
    rw [show (2 : Nat) ^ (8 * r) = 2 ^ off * 2 ^ (8 * r - off) by
      rw [← pow_add]
      congr 1
      omega]
    exact Nat.mod_mul_right_div_self _ _ _
  rw [e1, Nat.mod_mod_of_dvd _ (pow_dvd_pow 2 (by omega)),
    Nat.div_div_eq_div_mul, ← pow_add]
  rw [getBits]
  have hsum : 8 * bi + off = j := by
    rw [hbi, hoff]
    omega
  rw [hsum]

theorem setBitsN_lt (N j w v T : Nat) (hN : N < 2 ^ T) (hjw : j + w ≤ T) :
    setBitsN N j w v < 2 ^ T := by
  rw [setBitsN]
  have hlow : N % 2 ^ j + v % 2 ^ w * 2 ^ j < 2 ^ (j + w) := setBitsN_low_lt N j w v
  have hdiv : N / 2 ^ (j + w) < 2 ^ (T - (j + w)) := by
    rw [Nat.div_lt_iff_lt_mul (two_pow_pos' (j + w))]
    calc N < 2 ^ T := hN
      _ = 2 ^ (T - (j + w)) * 2 ^ (j + w) := by
          rw [← pow_add]
          congr 1
          omega
  obtain ⟨M, hM⟩ : ∃ M, 2 ^ (T - (j + w)) = M + 1 :=
    ⟨2 ^ (T - (j + w)) - 1, by have := two_pow_pos' (T - (j + w)); omega⟩
  calc N % 2 ^ j + v % 2 ^ w * 2 ^ j + N / 2 ^ (j + w) * 2 ^ (j + w)
      < 2 ^ (j + w) + N / 2 ^ (j + w) * 2 ^ (j + w) := by omega
    _ ≤ 2 ^ (j + w) + M * 2 ^ (j + w) := by
        have := Nat.mul_le_mul_right (2 ^ (j + w)) (show N / 2 ^ (j + w) ≤ M by omega)
        omega
    _ = (M + 1) * 2 ^ (j + w) := by ring
    _ = 2 ^ T := by
        rw [← hM, ← pow_add]
        congr 1
        omega

theorem setBitsN_zero_w (N j v : Nat) : setBitsN N j 0 v = N := by
  rw [setBitsN, Nat.pow_zero, Nat.mod_one, Nat.zero_mul, Nat.add_zero, Nat.add_zero]
  calc N % 2 ^ j + N / 2 ^ j * 2 ^ j = 2 ^ j * (N / 2 ^ j) + N % 2 ^ j := by ring
    _ = N := Nat.div_add_mod N (2 ^ j)

theorem setBitsN_split (N j w v bits : Nat) (hb : bits ≤ w) :
    setBitsN (setBitsN N j bits v) (j + bits) (w - bits) (v / 2 ^ bits) =
      setBitsN N j w v := by
  have hlow : N % 2 ^ j + v % 2 ^ bits * 2 ^ j < 2 ^ (j + bits) := setBitsN_low_lt N j bits v
  have hN1 : setBitsN N j bits v =
      (N % 2 ^ j + v % 2 ^ bits * 2 ^ j) + N / 2 ^ (j + bits) * 2 ^ (j + bits) := by
    rw [setBitsN]
  have hmod : setBitsN N j bits v % 2 ^ (j + bits) =
      N % 2 ^ j + v % 2 ^ bits * 2 ^ j := by
    rw [hN1, Nat.add_mul_mod_self_right, Nat.mod_eq_of_lt hlow]
  have hdiv : setBitsN N j bits v / 2 ^ (j + bits) = N / 2 ^ (j + bits) := by
    rw [hN1, Nat.add_mul_div_right _ _ (two_pow_pos' (j + bits)),
      Nat.div_eq_of_lt hlow, Nat.zero_add]
  have hexp : j + bits + (w - bits) = j + w := by omega
  have hdiv2 : setBitsN N j bits v / 2 ^ (j + w) = N / 2 ^ (j + w) := by
    rw [show (2 : Nat) ^ (j + w) = 2 ^ (j + bits) * 2 ^ (w - bits) by
        rw [← pow_add]
        congr 1
        omega,
      ← Nat.div_div_eq_div_mul, hdiv, Nat.div_div_eq_div_mul, ← pow_add, hexp]
  have hvm : v % 2 ^ bits + 2 ^ bits * (v / 2 ^ bits % 2 ^ (w - bits)) = v % 2 ^ w := by
    rw [show (2 : Nat) ^ w = 2 ^ bits * 2 ^ (w - bits) by
        rw [← pow_add]
        congr 1
        omega]
    exact Nat.mod_mul.symm
  rw [setBitsN, hmod, hexp, hdiv2, setBitsN]
  rw [← hvm]
  rw [show (2 : Nat) ^ (j + bits) = 2 ^ j * 2 ^ bits from by rw [← pow_add]]
  ring

theorem setBitsN_nest (N c T off w v : Nat) (hoffw : off + w ≤ T) :
    setBitsN N c T (setBitsN (getBits N c T) off w v) = setBitsN N (c + off) w v := by
  set M := T - (off + w) with hM
  have hblt : getBits N c T < 2 ^ T := Nat.mod_lt _ (two_pow_pos' T)
  have hBlt : setBitsN (getBits N c T) off w v < 2 ^ T :=
    setBitsN_lt _ off w v T hblt hoffw
  have hmodB : setBitsN (getBits N c T) off w v % 2 ^ T =
      setBitsN (getBits N c T) off w v := Nat.mod_eq_of_lt hBlt
  rw [setBitsN, hmodB, setBitsN, getBits]
  have f1 : N / 2 ^ c % 2 ^ T % 2 ^ off = N / 2 ^ c % 2 ^ off :=
    Nat.mod_mod_of_dvd _ (pow_dvd_pow 2 (by omega))
  have f2 : N / 2 ^ c % 2 ^ T / 2 ^ (off + w) = N / 2 ^ (c + off + w) % 2 ^ M := by
    rw [show (2 : Nat) ^ T = 2 ^ (off + w) * 2 ^ M by
        rw [← pow_add]
        congr 1
        omega,
      Nat.mod_mul_right_div_self, Nat.div_div_eq_div_mul, ← pow_add,
      show c + (off + w) = c + off + w from by omega]
  have g1 : N % 2 ^ (c + off) = N % 2 ^ c + 2 ^ c * (N / 2 ^ c % 2 ^ off) := by
    rw [pow_add]
    exact Nat.mod_mul
  have g2 : N / 2 ^ (c + T) = N / 2 ^ (c + off + w) / 2 ^ M := by
    rw [Nat.div_div_eq_div_mul, ← pow_add,
      show c + off + w + M = c + T from by omega]
  rw [f1, f2, setBitsN, g1, g2]
  generalize N / 2 ^ (c + off + w) = K
  have g3 := Nat.div_add_mod K (2 ^ M)
  generalize hq : K / 2 ^ M = q at g3 ⊢
  generalize hr : K % 2 ^ M = r at g3 ⊢
  rw [← g3]
  rw [show (2 : Nat) ^ (c + T) = 2 ^ c * 2 ^ off * 2 ^ w * 2 ^ M by
      rw [← pow_add, ← pow_add, ← pow_add]
      congr 1
      omega,
    show (2 : Nat) ^ (c + off + w) = 2 ^ c * 2 ^ off * 2 ^ w by
      rw [← pow_add, ← pow_add],
    show (2 : Nat) ^ (c + off) = 2 ^ c * 2 ^ off from by rw [← pow_add],
    show (2 : Nat) ^ (off + w) = 2 ^ off * 2 ^ w from by rw [← pow_add]]
  ring

theorem leVal_splice (bytes seg : List Nat) (bi : Nat) (h : BytesWF bytes)
    (hseg : BytesWF seg) (hlen : bi + seg.length ≤ bytes.length) :
    leVal (bytes.take bi ++ seg ++ bytes.drop (bi + seg.length)) =
      setBitsN (leVal bytes) (8 * bi) (8 * seg.length) (leVal seg) := by
  rw [List.append_assoc, leVal_append, leVal_append]
  have hlt : (bytes.take bi).length = bi := by
    rw [List.length_take]
    omega
  rw [hlt, leVal_take _ _ h, leVal_drop _ _ h]
  have hseglt : leVal seg < 2 ^ (8 * seg.length) := by
    have := leVal_lt_pow seg hseg
    rw [pow256_eq] at this
    exact this
  rw [setBitsN, Nat.mod_eq_of_lt hseglt, pow256_eq, pow256_eq, pow256_eq]
  rw [show (2 : Nat) ^ (8 * bi + 8 * seg.length) = 2 ^ (8 * bi) * 2 ^ (8 * seg.length) from
      by rw [← pow_add],
    show (2 : Nat) ^ (8 * (bi + seg.length)) = 2 ^ (8 * bi) * 2 ^ (8 * seg.length) by
      rw [← pow_add]
      congr 1
      omega]
  rw [← Nat.div_div_eq_div_mul]
  ring

theorem leVal_set (b : List Nat) (i nb : Nat) (h : BytesWF b) (hi : i < b.length)
    (hnb : nb < 256) :
    leVal (b.set i nb) = setBitsN (leVal b) (8 * i) 8 nb := by
  rw [List.set_eq_take_cons_drop _ hi]
  have e : b.take i ++ nb :: b.drop (i + 1) = b.take i ++ [nb] ++ b.drop (i + [nb].length) := by
    simp
  rw [e, leVal_splice b [nb] i h (by intro x hx; simp at hx; omega) (by simp; omega)]
  simp [leVal]

theorem leVal_replicate_zero (n : Nat) : leVal (List.replicate n 0) = 0 := by
  induction n with
  | zero => rfl
  | succ n ih => rw [List.replicate_succ, leVal, ih]

theorem writeBitsGo_spec (fuel : Nat) :
    ∀ (bitsRem : Nat), bitsRem ≤ fuel →
    ∀ (bytes : List Nat) (curByte curBit tempVal : Nat),
      BytesWF bytes → curBit < 8 →
      8 * curByte + curBit + bitsRem ≤ 8 * bytes.length →
      BytesWF (writeBitsGo fuel bytes curByte curBit bitsRem tempVal) ∧
      (writeBitsGo fuel bytes curByte curBit bitsRem tempVal).length = bytes.length ∧
      leVal (writeBitsGo fuel bytes curByte curBit bitsRem tempVal) =
        setBitsN (leVal bytes) (8 * curByte + curBit) bitsRem tempVal := by
  induction fuel with
  | zero =>
    intro bitsRem hbr bytes curByte curBit tempVal hwf hbit hfit
    have h0 : bitsRem = 0 := by omega
    rw [show writeBitsGo 0 bytes curByte curBit bitsRem tempVal = bytes from rfl,
      h0, setBitsN_zero_w]
    exact ⟨hwf, rfl, rfl⟩
  | succ fuel ih =>
    intro bitsRem hbr bytes curByte curBit tempVal hwf hbit hfit
    by_cases hstop : bitsRem = 0 ∨ bytes.length ≤ curByte
    · have hunfold : writeBitsGo (fuel + 1) bytes curByte curBit bitsRem tempVal = bytes := by
        rw [writeBitsGo, if_pos hstop]
      have h0 : bitsRem = 0 := by
        rcases hstop with h | h
        · exact h
        · omega
      rw [hunfold, h0, setBitsN_zero_w]
      exact ⟨hwf, rfl, rfl⟩
    · have hcb : curByte < bytes.length := by
        rcases Nat.lt_or_ge curByte bytes.length with h | h
        · exact h
        · exact absurd (Or.inr h) hstop
      have hbr0 : bitsRem ≠ 0 := fun h => hstop (Or.inl h)
      have hstep : writeBitsGo (fuel + 1) bytes curByte curBit bitsRem tempVal =
          writeBitsGo fuel
            (bytes.set curByte
              (bytes.getD curByte 0 &&&
                  (255 ^^^ (1 <<< min (8 - curBit) bitsRem - 1) <<< curBit) |||
                (tempVal &&& (1 <<< min (8 - curBit) bitsRem - 1)) <<< curBit))
            (curByte + 1) 0 (bitsRem - min (8 - curBit) bitsRem)
            (tempVal >>> min (8 - curBit) bitsRem) := by
        rw [writeBitsGo, if_neg hstop]
      have hminc := min_choice (8 - curBit) bitsRem
      have hble : min (8 - curBit) bitsRem ≤ bitsRem := Nat.min_le_right _ _
      have hblel : min (8 - curBit) bitsRem ≤ 8 - curBit := Nat.min_le_left _ _
      set bits := min (8 - curBit) bitsRem with hbitsdef
      have hbits1 : 1 ≤ bits := by
        rcases hminc with h | h <;> omega
      have hcb8 : curBit + bits ≤ 8 := by omega
      rw [Nat.one_shiftLeft] at hstep
      have hb8 : bytes.getD curByte 0 < 2 ^ 8 := by
        rw [getD_eq_leVal bytes curByte hwf]
        exact Nat.mod_lt _ (by norm_num)
      have hnb : bytes.getD curByte 0 &&& (255 ^^^ (2 ^ bits - 1) <<< curBit) |||
          (tempVal &&& (2 ^ bits - 1)) <<< curBit =
          setBitsN (bytes.getD curByte 0) curBit bits tempVal := by
        rw [show (255 : Nat) = 2 ^ 8 - 1 from by norm_num,
          clear_set_bits 8 (bytes.getD curByte 0) curBit bits tempVal hb8 hcb8, setBitsN]
      rw [hnb] at hstep
      have hnblt : setBitsN (bytes.getD curByte 0) curBit bits tempVal < 2 ^ 8 :=
        setBitsN_lt _ curBit bits tempVal 8 hb8 hcb8
      have hlv1 : leVal
          (bytes.set curByte (setBitsN (bytes.getD curByte 0) curBit bits tempVal)) =
          setBitsN (leVal bytes) (8 * curByte + curBit) bits tempVal := by
        rw [leVal_set bytes curByte _ hwf hcb (by norm_num at hnblt ⊢; omega),
          getD_eq_leVal bytes curByte hwf]
        rw [show leVal bytes / 2 ^ (8 * curByte) % 2 ^ 8 =
            getBits (leVal bytes) (8 * curByte) 8 from rfl]
        exact setBitsN_nest (leVal bytes) (8 * curByte) 8 curBit bits tempVal hcb8
      have hwf1 : BytesWF
          (bytes.set curByte (setBitsN (bytes.getD curByte 0) curBit bits tempVal)) := by
        intro x hx
        rcases List.mem_or_eq_of_mem_set hx with hx' | rfl
        · exact hwf x hx'
        · norm_num at hnblt ⊢
          omega
      have hlen1 : (bytes.set curByte
          (setBitsN (bytes.getD curByte 0) curBit bits tempVal)).length = bytes.length := by
        simp
      obtain ⟨hwf2, hlen2, hlv2⟩ :=
        ih (bitsRem - bits) (by omega)
          (bytes.set curByte (setBitsN (bytes.getD curByte 0) curBit bits tempVal))
          (curByte + 1) 0 (tempVal >>> bits) hwf1 (by norm_num)
          (by
            rw [hlen1]
            rcases hminc with h | h <;> omega)
      rw [hstep]
      refine ⟨hwf2, hlen2.trans hlen1, ?_⟩
      rw [hlv2, hlv1, Nat.shiftRight_eq_div_pow]
      by_cases hz : bitsRem - bits = 0
      · have hbb : bits = bitsRem := by omega
        rw [hz, setBitsN_zero_w, hbb]
      · have hpos : 8 * (curByte + 1) + 0 = 8 * curByte + curBit + bits := by
          rcases hminc with h | h <;> omega
        rw [hpos]
        exact setBitsN_split (leVal bytes) (8 * curByte + curBit) bitsRem tempVal bits hble

theorem writeBitsTail_spec (bitsRem : Nat) :
    ∀ (bytes : List Nat) (curByte curBit tempVal : Nat),
      BytesWF bytes → curBit < 8 →
      8 * curByte + curBit + bitsRem ≤ 8 * bytes.length →
      BytesWF (writeBitsTail bytes curByte curBit bitsRem tempVal) ∧
      (writeBitsTail bytes curByte curBit bitsRem tempVal).length = bytes.length ∧
      leVal (writeBitsTail bytes curByte curBit bitsRem tempVal) =
        setBitsN (leVal bytes) (8 * curByte + curBit) bitsRem tempVal := by
  intro bytes curByte curBit tempVal hwf hbit hfit
  rw [writeBitsTail]
  exact writeBitsGo_spec bitsRem bitsRem le_rfl bytes curByte curBit tempVal hwf hbit hfit

theorem setFilterValue_spec (bytes : List Nat) (w pos v : Nat) (h : BytesWF bytes)
    (hw32 : w ≤ 32) (hfit : pos * w + w ≤ 8 * bytes.length) :
    BytesWF (setFilterValue bytes w pos v) ∧
    (setFilterValue bytes w pos v).length = bytes.length ∧
    leVal (setFilterValue bytes w pos v) = setBitsN (leVal bytes) (pos * w) w v := by
  have hoff8 : (pos * w) % 8 < 8 := Nat.mod_lt _ (by norm_num)
  have hsum : 8 * ((pos * w) / 8) + (pos * w) % 8 = pos * w := by omega
  by_cases hwin : (pos * w) / 8 + 8 ≤ bytes.length
  · set bi := (pos * w) / 8 with hbi
    set off := (pos * w) % 8 with hoffd
    have hstep : setFilterValue bytes w pos v =
        bytes.take bi ++
          u64le (leVal ((bytes.drop bi).take 8) &&&
              (2 ^ 64 - 1 ^^^ (2 ^ w - 1) <<< off) ||| (v &&& (2 ^ w - 1)) <<< off) ++
          bytes.drop (bi + 8) := by
      rw [setFilterValue, if_pos hwin]
    have hwindow : leVal ((bytes.drop bi).take 8) = leVal bytes / 2 ^ (8 * bi) % 2 ^ 64 := by
      rw [leVal_take _ 8 (bytesWF_drop bytes bi h), leVal_drop bytes bi h, pow256_eq,
        pow256_eq, show (8 * 8 : Nat) = 64 from by norm_num]
    have hwlt : leVal ((bytes.drop bi).take 8) < 2 ^ 64 := by
      rw [hwindow]
      exact Nat.mod_lt _ (two_pow_pos' 64)
    have hoffw64 : off + w ≤ 64 := by omega
    have hcs : leVal ((bytes.drop bi).take 8) &&&
        (2 ^ 64 - 1 ^^^ (2 ^ w - 1) <<< off) ||| (v &&& (2 ^ w - 1)) <<< off =
        setBitsN (leVal ((bytes.drop bi).take 8)) off w v := by
      rw [clear_set_bits 64 _ off w v hwlt hoffw64, setBitsN]
    rw [hstep, hcs]
    have hW'lt : setBitsN (leVal ((bytes.drop bi).take 8)) off w v < 2 ^ 64 :=
      setBitsN_lt _ off w v 64 hwlt hoffw64
    have hseg : leVal (u64le (setBitsN (leVal ((bytes.drop bi).take 8)) off w v)) =
        setBitsN (leVal ((bytes.drop bi).take 8)) off w v := by
      rw [u64le, leVal_leBytes, pow256_eq, show (8 * 8 : Nat) = 64 from by norm_num,
        Nat.mod_eq_of_lt hW'lt]
    have hseglen : (u64le (setBitsN (leVal ((bytes.drop bi).take 8)) off w v)).length = 8 := by
      rw [u64le, length_leBytes]
    refine ⟨?_, ?_, ?_⟩
    · exact bytesWF_append _ _
        (bytesWF_append _ _ (bytesWF_take bytes bi h) (bytesWF_leBytes _ _))
        (bytesWF_drop bytes _ h)
    · rw [List.length_append, List.length_append, hseglen, List.length_take,
        List.length_drop]
      omega
    · have hsegwf : BytesWF (u64le (setBitsN (leVal ((bytes.drop bi).take 8)) off w v)) :=
        bytesWF_leBytes 8 _
      have hlenfit : bi +
          (u64le (setBitsN (leVal ((bytes.drop bi).take 8)) off w v)).length ≤
          bytes.length := by
        rw [hseglen]
        omega
      rw [show bytes.drop (bi + 8) = bytes.drop
          (bi + (u64le (setBitsN (leVal ((bytes.drop bi).take 8)) off w v)).length) from by
          rw [hseglen],
        leVal_splice bytes (u64le (setBitsN (leVal ((bytes.drop bi).take 8)) off w v)) bi h
          hsegwf hlenfit,
        hseglen, hseg, hwindow,
        show leVal bytes / 2 ^ (8 * bi) % 2 ^ 64 = getBits (leVal bytes) (8 * bi) 64 from rfl,
        show (8 * 8 : Nat) = 64 from by norm_num,
        setBitsN_nest (leVal bytes) (8 * bi) 64 off w v hoffw64, hsum]
  · have hstep : setFilterValue bytes w pos v =
        writeBitsTail bytes ((pos * w) / 8) ((pos * w) % 8) w v := by
      rw [setFilterValue, if_neg hwin]
    obtain ⟨h1, h2, h3⟩ := writeBitsTail_spec w bytes ((pos * w) / 8) ((pos * w) % 8) v h
      hoff8 (by omega)
    rw [hstep]
    exact ⟨h1, h2, by rw [h3, hsum]⟩

theorem getFilterValue_setFilterValue_self (bytes : List Nat) (w pos v : Nat)
    (h : BytesWF bytes) (hw : w ≤ 32) (hfit : pos * w + w ≤ 8 * bytes.length) :
    getFilterValue (setFilterValue bytes w pos v) w pos = v % 2 ^ w := by
  obtain ⟨h1, h2, h3⟩ := setFilterValue_spec bytes w pos v h hw hfit
  rw [getFilterValue_eq_getBits _ w pos h1 hw (by rw [h2]; exact hfit), h3,
    getBits_setBitsN_self]

theorem getFilterValue_setFilterValue_ne (bytes : List Nat) (w pos pos' v : Nat)
    (h : BytesWF bytes) (hw : w ≤ 32) (hfit : pos * w + w ≤ 8 * bytes.length)
    (hfit' : pos' * w + w ≤ 8 * bytes.length) (hne : pos ≠ pos') :
    getFilterValue (setFilterValue bytes w pos v) w pos' = getFilterValue bytes w pos' := by
  obtain ⟨h1, h2, h3⟩ := setFilterValue_spec bytes w pos v h hw hfit
  rw [getFilterValue_eq_getBits _ w pos' h1 hw (by rw [h2]; exact hfit'), h3,
    getBits_setBitsN_slot_ne _ _ _ _ _ hne,
    ← getFilterValue_eq_getBits bytes w pos' h hw hfit']

theorem listXor_cons (a : Nat) (l : List Nat) : listXor (a :: l) = a ^^^ listXor l := rfl

theorem listXor_singleton (a : Nat) : listXor [a] = a := Nat.xor_zero a

theorem listXor_erase (l : List Nat) (a : Nat) (ha : a ∈ l) :
    listXor (l.erase a) = listXor l ^^^ a := by
  induction l with
  | nil => cases ha
  | cons x xs ih =>
    by_cases hx : x = a
    · subst hx
      rw [List.erase_cons_head, listXor_cons, Nat.xor_comm x (listXor xs),
        Nat.xor_cancel_right]
    · have ha' : a ∈ xs := by
        rcases List.mem_cons.mp ha with h | h
        · exact absurd h.symm hx
        · exact h
      rw [List.erase_cons_tail (by simp [hx]), listXor_cons, listXor_cons, ih ha',
        Nat.xor_assoc]

theorem filter_exclude_erase (l : List Nat) (q : Nat → Bool) (k : Nat) (hnd : l.Nodup) :
    l.filter (fun x => !(x == k) && q x) = (l.filter q).erase k := by
  induction l with
  | nil => rfl
  | cons x xs ih =>
    have hx : x ∉ xs := (List.nodup_cons.mp hnd).1
    have hxs : xs.Nodup := (List.nodup_cons.mp hnd).2
    by_cases hxk : x = k
    · subst hxk
      have hcongr : xs.filter (fun y => !(y == x) && q y) = xs.filter q := by
        refine List.filter_congr ?_
        intro y hy
        have : y ≠ x := fun h => hx (h ▸ hy)
        simp [this]
      rw [List.filter_cons, if_neg (by simp), hcongr, List.filter_cons]
      by_cases hq : q x = true
      · rw [if_pos (by simp [hq]), List.erase_cons_head]
      · rw [if_neg hq, List.erase_of_not_mem]
        intro hmem
        exact hx (List.mem_of_mem_filter hmem)
    · have hbeq : (x == k) = false := by simp [hxk]
      rw [List.filter_cons, List.filter_cons]
      by_cases hq : q x = true
      · rw [if_pos (by simp [hq, hbeq]), if_pos (by simp [hq]),
          List.erase_cons_tail (by simp [hxk]), ih hxs]
      · rw [if_neg (by simp [hq]), if_neg hq, ih hxs]

theorem mem_unpeeledAt (hashes : List FuseHash) (peeled : List Nat) (p k : Nat) :
    k ∈ unpeeledAt hashes peeled p ↔
      k < hashes.length ∧ k ∉ peeled ∧
        fuseHasPos (hashes.getD k ⟨0, 0, 0, 0⟩) p = true := by
  simp [unpeeledAt, List.mem_filter, List.mem_range, and_assoc]

theorem nodup_unpeeledAt (hashes : List FuseHash) (peeled : List Nat) (p : Nat) :
    (unpeeledAt hashes peeled p).Nodup :=
  (List.nodup_range _).filter _

theorem length_unpeeledAt_le (hashes : List FuseHash) (peeled : List Nat) (p : Nat) :
    (unpeeledAt hashes peeled p).length ≤ hashes.length := by
  calc (unpeeledAt hashes peeled p).length ≤ (List.range hashes.length).length :=
        List.length_filter_le _ _
    _ = hashes.length := List.length_range _

theorem unpeeledAt_append_one (hashes : List FuseHash) (peeled : List Nat) (k p : Nat) :
    unpeeledAt hashes (peeled ++ [k]) p = (unpeeledAt hashes peeled p).erase k := by
  rw [unpeeledAt, unpeeledAt, ← filter_exclude_erase _ _ k (List.nodup_range _)]
  refine List.filter_congr ?_
  intro x _
  by_cases hmem : x ∈ peeled <;> by_cases hxk : x = k <;>
    simp [hmem, hxk, Bool.and_comm]

theorem unpeeledAt_nil_eq (hashes : List FuseHash) (p : Nat) :
    unpeeledAt hashes [] p =
      (List.range hashes.length).filter
        fun k => fuseHasPos (hashes.getD k ⟨0, 0, 0, 0⟩) p := by
  rw [unpeeledAt]
  refine List.filter_congr ?_
  intro x _
  rfl

theorem incSlot_triple_counts (i : Nat) (c x : Nat → Nat) (h : FuseHash)
    (hd : h.p0 ≠ h.p1 ∧ h.p0 ≠ h.p2 ∧ h.p1 ≠ h.p2) (p : Nat) :
    (incSlot i (incSlot i (incSlot i (c, x) h.p0) h.p1) h.p2).1 p =
      if fuseHasPos h p then (c p + 1) % 256 else c p := by
  obtain ⟨d1, d2, d3⟩ := hd
  simp only [incSlot, updf, fuseHasPos]
  by_cases h2 : p = h.p2 <;> by_cases h1 : p = h.p1 <;> by_cases h0 : p = h.p0 <;>
    simp [h0, h1, h2, d1, d2, d3, Ne.symm d1, Ne.symm d2, Ne.symm d3]

theorem incSlot_triple_xorks (i : Nat) (c x : Nat → Nat) (h : FuseHash)
    (hd : h.p0 ≠ h.p1 ∧ h.p0 ≠ h.p2 ∧ h.p1 ≠ h.p2) (p : Nat) :
    (incSlot i (incSlot i (incSlot i (c, x) h.p0) h.p1) h.p2).2 p =
      if fuseHasPos h p then x p ^^^ i else x p := by
  obtain ⟨d1, d2, d3⟩ := hd
  simp only [incSlot, updf, fuseHasPos]
  by_cases h2 : p = h.p2 <;> by_cases h1 : p = h.p1 <;> by_cases h0 : p = h.p0 <;>
    simp [h0, h1, h2, d1, d2, d3, Ne.symm d1, Ne.symm d2, Ne.symm d3]

theorem peel_triple_counts (k : Nat) (c x : Nat → Nat) (q : List Nat) (h : FuseHash)
    (hd : h.p0 ≠ h.p1 ∧ h.p0 ≠ h.p2 ∧ h.p1 ≠ h.p2) (p : Nat) :
    (peelNeighbor k (peelNeighbor k (peelNeighbor k ((c, x), q) h.p0) h.p1) h.p2).1.1 p =
      if fuseHasPos h p then (c p + 255) % 256 else c p := by
  obtain ⟨d1, d2, d3⟩ := hd
  simp only [peelNeighbor, updf, fuseHasPos]
  by_cases h2 : p = h.p2 <;> by_cases h1 : p = h.p1 <;> by_cases h0 : p = h.p0 <;>
    simp [h0, h1, h2, d1, d2, d3, Ne.symm d1, Ne.symm d2, Ne.symm d3]

theorem peel_triple_xorks (k : Nat) (c x : Nat → Nat) (q : List Nat) (h : FuseHash)
    (hd : h.p0 ≠ h.p1 ∧ h.p0 ≠ h.p2 ∧ h.p1 ≠ h.p2) (p : Nat) :
    (peelNeighbor k (peelNeighbor k (peelNeighbor k ((c, x), q) h.p0) h.p1) h.p2).1.2 p =
      if fuseHasPos h p then x p ^^^ k else x p := by
  obtain ⟨d1, d2, d3⟩ := hd
  simp only [peelNeighbor, updf, fuseHasPos]
  by_cases h2 : p = h.p2 <;> by_cases h1 : p = h.p1 <;> by_cases h0 : p = h.p0 <;>
    simp [h0, h1, h2, d1, d2, d3, Ne.symm d1, Ne.symm d2, Ne.symm d3]

theorem buildIncidence_go (p : Nat) :
    ∀ (ihs : List (Nat × FuseHash)) (cx : (Nat → Nat) × (Nat → Nat)),
      (∀ ih ∈ ihs, ih.2.p0 ≠ ih.2.p1 ∧ ih.2.p0 ≠ ih.2.p2 ∧ ih.2.p1 ≠ ih.2.p2) →
      (∀ p', cx.1 p' < 256) →
      (ihs.foldl
          (fun cx ih => incSlot ih.1 (incSlot ih.1 (incSlot ih.1 cx ih.2.p0) ih.2.p1) ih.2.p2)
          cx).1 p =
        (cx.1 p + (ihs.filter fun ih => fuseHasPos ih.2 p).length) % 256 ∧
      (ihs.foldl
          (fun cx ih => incSlot ih.1 (incSlot ih.1 (incSlot ih.1 cx ih.2.p0) ih.2.p1) ih.2.p2)
          cx).2 p =
        cx.2 p ^^^ listXor ((ihs.filter fun ih => fuseHasPos ih.2 p).map Prod.fst)
  | [], cx => by
    intro _ hc
    refine ⟨?_, ?_⟩
    · simp [Nat.mod_eq_of_lt (hc p)]
    · simp [listXor]
  | ih :: rest, cx => by
    intro hd hc
    obtain ⟨c, x⟩ := cx
    have hdih := hd ih (List.mem_cons_self _ _)
    have hdrest : ∀ ih' ∈ rest, ih'.2.p0 ≠ ih'.2.p1 ∧ ih'.2.p0 ≠ ih'.2.p2 ∧
        ih'.2.p1 ≠ ih'.2.p2 := fun ih' h' => hd ih' (List.mem_cons_of_mem _ h')
    have hc' : ∀ p', (incSlot ih.1 (incSlot ih.1 (incSlot ih.1 (c, x) ih.2.p0) ih.2.p1)
        ih.2.p2).1 p' < 256 := by
      intro p'
      rw [incSlot_triple_counts ih.1 c x ih.2 hdih p']
      by_cases hp' : fuseHasPos ih.2 p' = true
      · rw [if_pos hp']
        exact Nat.mod_lt _ (by norm_num)
      · rw [if_neg hp']
        exact hc p'
    obtain ⟨ih1, ih2⟩ := buildIncidence_go p rest
      (incSlot ih.1 (incSlot ih.1 (incSlot ih.1 (c, x) ih.2.p0) ih.2.p1) ih.2.p2)
      hdrest hc'
    rw [List.foldl_cons]
    refine ⟨?_, ?_⟩
    · rw [ih1, incSlot_triple_counts ih.1 c x ih.2 hdih p, List.filter_cons]
      by_cases hp : fuseHasPos ih.2 p = true
      · rw [if_pos hp, if_pos (by simp [hp])]
        simp only [List.length_cons]
        omega
      · rw [if_neg hp, if_neg (by simp [hp])]
    · rw [ih2, incSlot_triple_xorks ih.1 c x ih.2 hdih p, List.filter_cons]
      by_cases hp : fuseHasPos ih.2 p = true
      · rw [if_pos hp, if_pos (by simp [hp]), List.map_cons, listXor_cons, Nat.xor_assoc]
      · rw [if_neg hp, if_neg (by simp [hp])]

theorem enumFrom_incident_eq (p : Nat) :
    ∀ (l : List FuseHash) (s : Nat),
      ((List.enumFrom s l).filter fun ih => fuseHasPos ih.2 p).map Prod.fst =
        ((List.range l.length).filter
            fun j => fuseHasPos (l.getD j ⟨0, 0, 0, 0⟩) p).map (fun j => s + j)
  | [], s => by simp
  | h :: t, s => by
    rw [show List.enumFrom s (h :: t) = (s, h) :: List.enumFrom (s + 1) t from rfl,
      List.filter_cons,
      show (h :: t).length = t.length + 1 from rfl, List.range_succ_eq_map,
      List.filter_cons, List.filter_map]
    have hcomp : ((fun j => fuseHasPos ((h :: t).getD j ⟨0, 0, 0, 0⟩) p) ∘ Nat.succ) =
        fun j => fuseHasPos (t.getD j ⟨0, 0, 0, 0⟩) p := by
      funext j
      rfl
    rw [hcomp]
    have hmaps : (((List.range t.length).filter
        fun j => fuseHasPos (t.getD j ⟨0, 0, 0, 0⟩) p).map Nat.succ).map (fun j => s + j) =
        ((List.range t.length).filter
          fun j => fuseHasPos (t.getD j ⟨0, 0, 0, 0⟩) p).map (fun j => s + 1 + j) := by
      rw [List.map_map]
      refine List.map_congr_left ?_
      intro j _
      simp [Function.comp]
      omega
    by_cases hp : fuseHasPos h p = true
    · rw [if_pos (by exact hp), if_pos (by exact hp), List.map_cons, List.map_cons,
        enumFrom_incident_eq p t (s + 1), hmaps]
      simp
    · rw [if_neg (by exact hp), if_neg (by exact hp),
        enumFrom_incident_eq p t (s + 1), hmaps]

theorem enum_incident_eq (hashes : List FuseHash) (p : Nat) :
    (hashes.enum.filter fun ih => fuseHasPos ih.2 p).map Prod.fst =
      unpeeledAt hashes [] p := by
  rw [show hashes.enum = List.enumFrom 0 hashes from rfl, enumFrom_incident_eq,
    unpeeledAt_nil_eq]
  refine (List.map_congr_left ?_).trans (List.map_id _)
  intro j _
  simp

theorem buildIncidence_init (hashes : List FuseHash)
    (hdist : ∀ h ∈ hashes, h.p0 ≠ h.p1 ∧ h.p0 ≠ h.p2 ∧ h.p1 ≠ h.p2)
    (hn : hashes.length ≤ 255) (p : Nat) :
    (buildIncidence hashes.enum).1 p = (unpeeledAt hashes [] p).length ∧
    (buildIncidence hashes.enum).2 p = listXor (unpeeledAt hashes [] p) := by
  have hd' : ∀ ih ∈ hashes.enum, ih.2.p0 ≠ ih.2.p1 ∧ ih.2.p0 ≠ ih.2.p2 ∧
      ih.2.p1 ≠ ih.2.p2 := fun ih h' => hdist ih.2 (List.snd_mem_of_mem_enum h')
  obtain ⟨h1, h2⟩ := buildIncidence_go p hashes.enum (fun _ => 0, fun _ => 0) hd'
    (fun _ => by norm_num)
  have hlen : (hashes.enum.filter fun ih => fuseHasPos ih.2 p).length =
      (unpeeledAt hashes [] p).length := by
    rw [← enum_incident_eq hashes p, List.length_map]
  refine ⟨?_, ?_⟩
  · rw [buildIncidence, h1, Nat.zero_add, hlen]
    exact Nat.mod_eq_of_lt (by
      have := length_unpeeledAt_le hashes [] p
      omega)
  · rw [buildIncidence, h2, enum_incident_eq hashes p, Nat.zero_xor]

theorem peelLoop_sound (hashes : List FuseHash) (hn : hashes.length ≤ 255)
    (hdist : ∀ h ∈ hashes, h.p0 ≠ h.p1 ∧ h.p0 ≠ h.p2 ∧ h.p1 ≠ h.p2) :
    ∀ (fuel : Nat) (q : List Nat) (counts xorks : Nat → Nat) (stack : List (Nat × Nat)),
      (∀ p, counts p = (unpeeledAt hashes (stack.map Prod.fst) p).length) →
      (∀ p, xorks p = listXor (unpeeledAt hashes (stack.map Prod.fst) p)) →
      fuseStackInv hashes stack →
      fuseStackInv hashes (peelLoop hashes fuel q counts xorks stack)
  | 0, _, _, _, _ => fun _ _ hinv => hinv
  | _ + 1, [], _, _, _ => fun _ _ hinv => hinv
  | fuel + 1, pos :: q, counts, xorks, stack => by
    intro hcounts hxorks hinv
    by_cases hc : counts pos = 1
    · have hone : (unpeeledAt hashes (stack.map Prod.fst) pos).length = 1 := by
        rw [← hcounts pos]
        exact hc
      obtain ⟨k₀, hk0⟩ := List.length_eq_one.mp hone
      have hkmem : k₀ ∈ unpeeledAt hashes (stack.map Prod.fst) pos := by
        rw [hk0]
        exact List.mem_singleton.mpr rfl
      obtain ⟨hklt, hknp, hkpos⟩ := (mem_unpeeledAt _ _ _ _).mp hkmem
      have hkval : xorks pos = k₀ := by
        rw [hxorks pos, hk0, listXor_singleton]
      have hdk : (hashes.getD k₀ ⟨0, 0, 0, 0⟩).p0 ≠ (hashes.getD k₀ ⟨0, 0, 0, 0⟩).p1 ∧
          (hashes.getD k₀ ⟨0, 0, 0, 0⟩).p0 ≠ (hashes.getD k₀ ⟨0, 0, 0, 0⟩).p2 ∧
          (hashes.getD k₀ ⟨0, 0, 0, 0⟩).p1 ≠ (hashes.getD k₀ ⟨0, 0, 0, 0⟩).p2 := by
        rw [List.getD_eq_getElem _ _ hklt]
        exact hdist _ (List.getElem_mem hklt)
      have hstep : peelLoop hashes (fuel + 1) (pos :: q) counts xorks stack =
          peelLoop hashes fuel
            (peelNeighbor (xorks pos) (peelNeighbor (xorks pos) (peelNeighbor (xorks pos)
                ((counts, xorks), q) (hashes.getD (xorks pos) ⟨0, 0, 0, 0⟩).p0)
              (hashes.getD (xorks pos) ⟨0, 0, 0, 0⟩).p1)
              (hashes.getD (xorks pos) ⟨0, 0, 0, 0⟩).p2).2
            (peelNeighbor (xorks pos) (peelNeighbor (xorks pos) (peelNeighbor (xorks pos)
                ((counts, xorks), q) (hashes.getD (xorks pos) ⟨0, 0, 0, 0⟩).p0)
              (hashes.getD (xorks pos) ⟨0, 0, 0, 0⟩).p1)
              (hashes.getD (xorks pos) ⟨0, 0, 0, 0⟩).p2).1.1
            (peelNeighbor (xorks pos) (peelNeighbor (xorks pos) (peelNeighbor (xorks pos)
                ((counts, xorks), q) (hashes.getD (xorks pos) ⟨0, 0, 0, 0⟩).p0)
              (hashes.getD (xorks pos) ⟨0, 0, 0, 0⟩).p1)
              (hashes.getD (xorks pos) ⟨0, 0, 0, 0⟩).p2).1.2
            (stack ++ [(xorks pos, pos)]) := by
        rw [peelLoop, if_pos hc]
      rw [hstep, hkval]
      have hmap' : ((stack ++ [(k₀, pos)]).map Prod.fst) = stack.map Prod.fst ++ [k₀] := by
        rw [List.map_append]
        rfl
      obtain ⟨hent, hnd, hpw, hsep⟩ := hinv
      have hcross : ∀ a ∈ stack, fuseHasPos (hashes.getD k₀ ⟨0, 0, 0, 0⟩) a.2 = false := by
        intro a ha
        by_contra hcon
        have htrue : fuseHasPos (hashes.getD k₀ ⟨0, 0, 0, 0⟩) a.2 = true := by
          revert hcon
          cases fuseHasPos (hashes.getD k₀ ⟨0, 0, 0, 0⟩) a.2 <;> simp
        have : k₀ ∈ unpeeledAt hashes (stack.map Prod.fst) a.2 :=
          (mem_unpeeledAt _ _ _ _).mpr ⟨hklt, hknp, htrue⟩
        rw [hsep a ha] at this
        cases this
      have hinv' : fuseStackInv hashes (stack ++ [(k₀, pos)]) := by
        refine ⟨?_, ?_, ?_, ?_⟩
        · intro e he
          rcases List.mem_append.mp he with h' | h'
          · exact hent e h'
          · rw [List.mem_singleton.mp h']
            exact ⟨hklt, hkpos⟩
        · rw [hmap']
          simp [List.nodup_append, hnd, hknp]
        · refine List.pairwise_append.mpr ⟨hpw, List.pairwise_singleton _ _, ?_⟩
          intro a ha b hb
          rw [List.mem_singleton.mp hb]
          exact hcross a ha
        · intro e he
          rw [hmap', unpeeledAt_append_one]
          rcases List.mem_append.mp he with h' | h'
          · rw [hsep e h', List.erase_nil]
          · rw [List.mem_singleton.mp h']
            rw [hk0, List.erase_cons_head]
      have hcounts' : ∀ p,
          (peelNeighbor k₀ (peelNeighbor k₀ (peelNeighbor k₀ ((counts, xorks), q)
              (hashes.getD k₀ ⟨0, 0, 0, 0⟩).p0) (hashes.getD k₀ ⟨0, 0, 0, 0⟩).p1)
              (hashes.getD k₀ ⟨0, 0, 0, 0⟩).p2).1.1 p =
            (unpeeledAt hashes ((stack ++ [(k₀, pos)]).map Prod.fst) p).length := by
        intro p
        rw [peel_triple_counts k₀ counts xorks q _ hdk p, hmap', unpeeledAt_append_one]
        by_cases hp : fuseHasPos (hashes.getD k₀ ⟨0, 0, 0, 0⟩) p = true
        · rw [if_pos hp]
          have hmem : k₀ ∈ unpeeledAt hashes (stack.map Prod.fst) p :=
            (mem_unpeeledAt _ _ _ _).mpr ⟨hklt, hknp, hp⟩
          rw [List.length_erase_of_mem hmem, hcounts p]
          have h1 : 0 < (unpeeledAt hashes (stack.map Prod.fst) p).length :=
            List.length_pos_of_mem hmem
          have h2 : (unpeeledAt hashes (stack.map Prod.fst) p).length ≤ 255 := by
            have := length_unpeeledAt_le hashes (stack.map Prod.fst) p
            omega
          omega
        · rw [if_neg hp, hcounts p, List.erase_of_not_mem]
          intro hmem
          exact hp ((mem_unpeeledAt _ _ _ _).mp hmem).2.2
      have hxorks' : ∀ p,
          (peelNeighbor k₀ (peelNeighbor k₀ (peelNeighbor k₀ ((counts, xorks), q)
              (hashes.getD k₀ ⟨0, 0, 0, 0⟩).p0) (hashes.getD k₀ ⟨0, 0, 0, 0⟩).p1)
              (hashes.getD k₀ ⟨0, 0, 0, 0⟩).p2).1.2 p =
            listXor (unpeeledAt hashes ((stack ++ [(k₀, pos)]).map Prod.fst) p) := by
        intro p
        rw [peel_triple_xorks k₀ counts xorks q _ hdk p, hmap', unpeeledAt_append_one]
        by_cases hp : fuseHasPos (hashes.getD k₀ ⟨0, 0, 0, 0⟩) p = true
        · rw [if_pos hp]
          have hmem : k₀ ∈ unpeeledAt hashes (stack.map Prod.fst) p :=
            (mem_unpeeledAt _ _ _ _).mpr ⟨hklt, hknp, hp⟩
          rw [listXor_erase _ _ hmem, hxorks p]
        · rw [if_neg hp, hxorks p, List.erase_of_not_mem]
          intro hmem
          exact hp ((mem_unpeeledAt _ _ _ _).mp hmem).2.2
      exact peelLoop_sound hashes hn hdist fuel _ _ _ _ hcounts' hxorks' hinv'
    · have hstep : peelLoop hashes (fuel + 1) (pos :: q) counts xorks stack =
          peelLoop hashes fuel q counts xorks stack := by
        rw [peelLoop, if_neg hc]
      rw [hstep]
      exact peelLoop_sound hashes hn hdist fuel q counts xorks stack hcounts hxorks hinv

theorem getFilterValue_lt (bytes : List Nat) (w pos : Nat) :
    getFilterValue bytes w pos < 2 ^ w := by
  simp only [getFilterValue]
  rw [Nat.and_pow_two_sub_one_eq_mod]
  exact Nat.mod_lt _ (two_pow_pos' w)

theorem natXor_left_comm (a b c : Nat) : a ^^^ (b ^^^ c) = b ^^^ (a ^^^ c) := by
  rw [← Nat.xor_assoc, Nat.xor_comm a b, Nat.xor_assoc]

theorem fuseHasPos_iff (h : FuseHash) (p : Nat) :
    fuseHasPos h p = true ↔ p = h.p0 ∨ p = h.p1 ∨ p = h.p2 := by
  simp [fuseHasPos, or_assoc]

theorem assign_go (hashes : List FuseHash) (w L : Nat) (hw32 : w ≤ 32)
    (hfitAll : ∀ h ∈ hashes,
      h.p0 * w + w ≤ 8 * L ∧ h.p1 * w + w ≤ 8 * L ∧ h.p2 * w + w ≤ 8 * L)
    (hdist : ∀ h ∈ hashes, h.p0 ≠ h.p1 ∧ h.p0 ≠ h.p2 ∧ h.p1 ≠ h.p2)
    (hfp : ∀ h ∈ hashes, h.fp < 2 ^ w) :
    ∀ (r : List (Nat × Nat)) (bytes : List Nat),
      BytesWF bytes → bytes.length = L →
      (∀ e ∈ r, e.1 < hashes.length ∧
        fuseHasPos (hashes.getD e.1 ⟨0, 0, 0, 0⟩) e.2 = true) →
      (r.map Prod.snd).Nodup →
      r.Pairwise (fun a b => fuseHasPos (hashes.getD a.1 ⟨0, 0, 0, 0⟩) b.2 = false) →
      (∀ e ∈ r, getFilterValue bytes w e.2 = 0) →
      BytesWF (r.foldl (fun bytes kp =>
          setFilterValue bytes w kp.2 ((hashes.getD kp.1 ⟨0, 0, 0, 0⟩).fp ^^^
            (getFilterValue bytes w (hashes.getD kp.1 ⟨0, 0, 0, 0⟩).p0 ^^^
              getFilterValue bytes w (hashes.getD kp.1 ⟨0, 0, 0, 0⟩).p1 ^^^
              getFilterValue bytes w (hashes.getD kp.1 ⟨0, 0, 0, 0⟩).p2))) bytes) ∧
      (r.foldl (fun bytes kp =>
          setFilterValue bytes w kp.2 ((hashes.getD kp.1 ⟨0, 0, 0, 0⟩).fp ^^^
            (getFilterValue bytes w (hashes.getD kp.1 ⟨0, 0, 0, 0⟩).p0 ^^^
              getFilterValue bytes w (hashes.getD kp.1 ⟨0, 0, 0, 0⟩).p1 ^^^
              getFilterValue bytes w (hashes.getD kp.1 ⟨0, 0, 0, 0⟩).p2))) bytes).length
        = L ∧
      (∀ p, p * w + w ≤ 8 * L → p ∉ r.map Prod.snd →
        getFilterValue (r.foldl (fun bytes kp =>
          setFilterValue bytes w kp.2 ((hashes.getD kp.1 ⟨0, 0, 0, 0⟩).fp ^^^
            (getFilterValue bytes w (hashes.getD kp.1 ⟨0, 0, 0, 0⟩).p0 ^^^
              getFilterValue bytes w (hashes.getD kp.1 ⟨0, 0, 0, 0⟩).p1 ^^^
              getFilterValue bytes w (hashes.getD kp.1 ⟨0, 0, 0, 0⟩).p2))) bytes) w p =
          getFilterValue bytes w p) ∧
      (∀ e ∈ r,
        getFilterValue (r.foldl (fun bytes kp =>
          setFilterValue bytes w kp.2 ((hashes.getD kp.1 ⟨0, 0, 0, 0⟩).fp ^^^
            (getFilterValue bytes w (hashes.getD kp.1 ⟨0, 0, 0, 0⟩).p0 ^^^
              getFilterValue bytes w (hashes.getD kp.1 ⟨0, 0, 0, 0⟩).p1 ^^^
              getFilterValue bytes w (hashes.getD kp.1 ⟨0, 0, 0, 0⟩).p2))) bytes) w
            (hashes.getD e.1 ⟨0, 0, 0, 0⟩).p0 ^^^
          getFilterValue (r.foldl (fun bytes kp =>
          setFilterValue bytes w kp.2 ((hashes.getD kp.1 ⟨0, 0, 0, 0⟩).fp ^^^
            (getFilterValue bytes w (hashes.getD kp.1 ⟨0, 0, 0, 0⟩).p0 ^^^
              getFilterValue bytes w (hashes.getD kp.1 ⟨0, 0, 0, 0⟩).p1 ^^^
              getFilterValue bytes w (hashes.getD kp.1 ⟨0, 0, 0, 0⟩).p2))) bytes) w
            (hashes.getD e.1 ⟨0, 0, 0, 0⟩).p1 ^^^
          getFilterValue (r.foldl (fun bytes kp =>
          setFilterValue bytes w kp.2 ((hashes.getD kp.1 ⟨0, 0, 0, 0⟩).fp ^^^
            (getFilterValue bytes w (hashes.getD kp.1 ⟨0, 0, 0, 0⟩).p0 ^^^
              getFilterValue bytes w (hashes.getD kp.1 ⟨0, 0, 0, 0⟩).p1 ^^^
              getFilterValue bytes w (hashes.getD kp.1 ⟨0, 0, 0, 0⟩).p2))) bytes) w
            (hashes.getD e.1 ⟨0, 0, 0, 0⟩).p2 =
          (hashes.getD e.1 ⟨0, 0, 0, 0⟩).fp) := by
  have hfitpos : ∀ (j p : Nat), j < hashes.length →
      fuseHasPos (hashes.getD j ⟨0, 0, 0, 0⟩) p = true → p * w + w ≤ 8 * L := by
    intro j p hj hp
    have hmem : hashes.getD j ⟨0, 0, 0, 0⟩ ∈ hashes := by
      rw [List.getD_eq_getElem _ _ hj]
      exact List.getElem_mem hj
    obtain ⟨f0, f1, f2⟩ := hfitAll _ hmem
    rcases (fuseHasPos_iff _ _).mp hp with h' | h' | h' <;> rw [h'] <;> assumption
  intro r
  induction r with
  | nil =>
    intro bytes hwf hlen _ _ _ _
    refine ⟨hwf, hlen, fun p _ _ => rfl, fun e he => absurd he (List.not_mem_nil e)⟩
  | cons e r' ih =>
    intro bytes hwf hlen hent hnd hpw hzero
    obtain ⟨k, pos⟩ := e
    obtain ⟨hk, hpos⟩ := hent (k, pos) (List.mem_cons_self _ _)
    have hmemk : hashes.getD k ⟨0, 0, 0, 0⟩ ∈ hashes := by
      rw [List.getD_eq_getElem _ _ hk]
      exact List.getElem_mem hk
    obtain ⟨d1, d2, d3⟩ := hdist _ hmemk
    obtain ⟨f0, f1, f2⟩ := hfitAll _ hmemk
    have hfpk := hfp _ hmemk
    have hposfit : pos * w + w ≤ 8 * L := hfitpos k pos hk hpos
    have hz : getFilterValue bytes w pos = 0 := hzero (k, pos) (List.mem_cons_self _ _)
    rw [List.foldl_cons]
    set h := hashes.getD k ⟨0, 0, 0, 0⟩ with hh
    set val := h.fp ^^^
      (getFilterValue bytes w h.p0 ^^^ getFilterValue bytes w h.p1 ^^^
        getFilterValue bytes w h.p2) with hval
    obtain ⟨hwf1, hlen1, _⟩ :=
      setFilterValue_spec bytes w pos val hwf hw32 (by rw [hlen]; exact hposfit)
    rw [hlen] at hlen1
    have hvallt : val < 2 ^ w := by
      rw [hval]
      exact Nat.xor_lt_two_pow hfpk
        (Nat.xor_lt_two_pow (Nat.xor_lt_two_pow (getFilterValue_lt _ _ _)
          (getFilterValue_lt _ _ _)) (getFilterValue_lt _ _ _))
    have hself : getFilterValue (setFilterValue bytes w pos val) w pos = val := by
      rw [getFilterValue_setFilterValue_self bytes w pos val hwf hw32
        (by rw [hlen]; exact hposfit), Nat.mod_eq_of_lt hvallt]
    have hne : ∀ p', p' * w + w ≤ 8 * L → p' ≠ pos →
        getFilterValue (setFilterValue bytes w pos val) w p' =
          getFilterValue bytes w p' := by
      intro p' hp' hnep
      exact getFilterValue_setFilterValue_ne bytes w pos p' val hwf hw32
        (by rw [hlen]; exact hposfit) (by rw [hlen]; exact hp') (fun hh' => hnep hh'.symm)
    have hsnd_ne : ∀ e' ∈ r', e'.2 ≠ pos := by
      intro e' he' heq
      have : pos ∈ r'.map Prod.snd := by
        rw [← heq]
        exact List.mem_map_of_mem _ he'
      exact (List.nodup_cons.mp hnd).1 this
    have hzero' : ∀ e' ∈ r', getFilterValue (setFilterValue bytes w pos val) w e'.2 = 0 := by
      intro e' he'
      obtain ⟨hk', hpos'⟩ := hent e' (List.mem_cons_of_mem _ he')
      rw [hne e'.2 (hfitpos e'.1 e'.2 hk' hpos') (hsnd_ne e' he')]
      exact hzero e' (List.mem_cons_of_mem _ he')
    obtain ⟨hwfF, hlenF, hframeF, hxorF⟩ := ih (setFilterValue bytes w pos val) hwf1 hlen1
      (fun e' he' => hent e' (List.mem_cons_of_mem _ he'))
      ((List.nodup_cons.mp hnd).2) ((List.pairwise_cons.mp hpw).2)
      hzero'
    have hpwhead : ∀ b ∈ r', fuseHasPos h b.2 = false := by
      intro b hb
      exact (List.pairwise_cons.mp hpw).1 b hb
    have hnotin : ∀ p', fuseHasPos h p' = true → p' ∉ r'.map Prod.snd := by
      intro p' hp' hmem
      obtain ⟨b, hb, rfl⟩ := List.mem_map.mp hmem
      rw [hpwhead b hb] at hp'
      cases hp'
    refine ⟨hwfF, hlenF, ?_, ?_⟩
    · intro p hpfit hpnot
      have hp1 : p ∉ r'.map Prod.snd := by
        intro hmem
        exact hpnot (by
          rw [List.map_cons]
          exact List.mem_cons_of_mem _ hmem)
      have hp2 : p ≠ pos := by
        intro heq
        exact hpnot (by
          rw [List.map_cons, heq]
          exact List.mem_cons_self _ _)
      rw [hframeF p hpfit hp1, hne p hpfit hp2]
    · intro e' he'
      rcases List.mem_cons.mp he' with heq | he''
      · have he1 : e'.1 = k := by rw [heq]
        have hframe0 : getFilterValue (r'.foldl _ (setFilterValue bytes w pos val)) w h.p0 =
            getFilterValue (setFilterValue bytes w pos val) w h.p0 :=
          hframeF h.p0 f0 (hnotin h.p0 ((fuseHasPos_iff h h.p0).mpr (Or.inl rfl)))
        have hframe1 : getFilterValue (r'.foldl _ (setFilterValue bytes w pos val)) w h.p1 =
            getFilterValue (setFilterValue bytes w pos val) w h.p1 :=
          hframeF h.p1 f1 (hnotin h.p1 ((fuseHasPos_iff h h.p1).mpr (Or.inr (Or.inl rfl))))
        have hframe2 : getFilterValue (r'.foldl _ (setFilterValue bytes w pos val)) w h.p2 =
            getFilterValue (setFilterValue bytes w pos val) w h.p2 :=
          hframeF h.p2 f2 (hnotin h.p2 ((fuseHasPos_iff h h.p2).mpr (Or.inr (Or.inr rfl))))
      -- pos is exactly one of the three slots; the other two keep their old value
        rcases (fuseHasPos_iff h pos).mp hpos with hp | hp | hp
        · rw [he1, ← hh, hframe0, hframe1, hframe2, show h.p0 = pos from hp.symm, hself,
            hne h.p1 f1 (by rw [hp]; exact fun c => d1 c.symm),
            hne h.p2 f2 (by rw [hp]; exact fun c => d2 c.symm), hval,
            show getFilterValue bytes w h.p0 = 0 from by rw [hp] at hz; exact hz]
          simp [Nat.xor_assoc, Nat.xor_comm, natXor_left_comm]
        · rw [he1, ← hh, hframe0, hframe1, hframe2, show h.p1 = pos from hp.symm, hself,
            hne h.p0 f0 (by rw [hp]; exact fun c => d1 c),
            hne h.p2 f2 (by rw [hp]; exact fun c => d3 c.symm), hval,
            show getFilterValue bytes w h.p1 = 0 from by rw [hp] at hz; exact hz]
          simp [Nat.xor_assoc, Nat.xor_comm, natXor_left_comm]
        · rw [he1, ← hh, hframe0, hframe1, hframe2, show h.p2 = pos from hp.symm, hself,
            hne h.p0 f0 (by rw [hp]; exact fun c => d2 c),
            hne h.p1 f1 (by rw [hp]; exact fun c => d3 c), hval,
            show getFilterValue bytes w h.p2 = 0 from by rw [hp] at hz; exact hz]
          simp [Nat.xor_assoc, Nat.xor_comm, natXor_left_comm]
      · exact hxorF e' he''

theorem fuseMix_lt (a b : Nat) : fuseMix a b < 2 ^ 64 := by
  simp only [fuseMix]
  have h1 : a * b % 2 ^ 128 % 2 ^ 64 < 2 ^ 64 := Nat.mod_lt _ (two_pow_pos' 64)
  have h2 : a * b % 2 ^ 128 / 2 ^ 64 < 2 ^ 64 := by
    have hr : a * b % 2 ^ 128 < 2 ^ 128 := Nat.mod_lt _ (two_pow_pos' 128)
    rw [Nat.div_lt_iff_lt_mul (two_pow_pos' 64)]
    calc a * b % 2 ^ 128 < 2 ^ 128 := hr
      _ = 2 ^ 64 * 2 ^ 64 := by norm_num
  exact Nat.xor_lt_two_pow h1 h2

theorem hashKey_lt (key : Str) (seed : Nat) : hashKey key seed < 2 ^ 64 :=
  fuseMix_lt _ _

theorem fastRange_lt (h range : Nat) (hh : h < 2 ^ 64) (hr : 0 < range) :
    fastRange h range < range := by
  rw [fastRange, Nat.div_lt_iff_lt_mul (two_pow_pos' 64)]
  calc h * range < 2 ^ 64 * range := (Nat.mul_lt_mul_right hr).mpr hh
    _ = range * 2 ^ 64 := by ring

theorem getLoc_props (fpBits seg seed : Nat) (key : Str) (hseg : 1 ≤ seg)
    (hfp : 1 ≤ fpBits) :
    (getLocationsAndFingerprint fpBits seg seed key).p0 < seg ∧
    seg ≤ (getLocationsAndFingerprint fpBits seg seed key).p1 ∧
    (getLocationsAndFingerprint fpBits seg seed key).p1 < 2 * seg ∧
    2 * seg ≤ (getLocationsAndFingerprint fpBits seg seed key).p2 ∧
    (getLocationsAndFingerprint fpBits seg seed key).p2 < 3 * seg ∧
    (getLocationsAndFingerprint fpBits seg seed key).fp ≠ 0 ∧
    (getLocationsAndFingerprint fpBits seg seed key).fp < 2 ^ fpBits := by
  simp only [getLocationsAndFingerprint]
  have hh : hashKey key seed < 2 ^ 64 := hashKey_lt key seed
  have hh1 : (hashKey key seed >>> 21) ||| ((hashKey key seed <<< 43) % 2 ^ 64) < 2 ^ 64 := by
    refine Nat.or_lt_two_pow ?_ (Nat.mod_lt _ (two_pow_pos' 64))
    rw [Nat.shiftRight_eq_div_pow]
    exact Nat.lt_of_le_of_lt (Nat.div_le_self _ _) hh
  have hh2 : (hashKey key seed >>> 42) ||| ((hashKey key seed <<< 22) % 2 ^ 64) < 2 ^ 64 := by
    refine Nat.or_lt_two_pow ?_ (Nat.mod_lt _ (two_pow_pos' 64))
    rw [Nat.shiftRight_eq_div_pow]
    exact Nat.lt_of_le_of_lt (Nat.div_le_self _ _) hh
  have hp0 := fastRange_lt _ seg hh (by omega)
  have hp1 := fastRange_lt _ seg hh1 (by omega)
  have hp2 := fastRange_lt _ seg hh2 (by omega)
  have h2lt : 1 < 2 ^ fpBits := by
    calc 1 < 2 ^ 1 := by norm_num
      _ ≤ 2 ^ fpBits := Nat.pow_le_pow_right (by norm_num) hfp
  refine ⟨hp0, by omega, by omega, by omega, by omega, ?_, ?_⟩
  · rw [Nat.and_pow_two_sub_one_eq_mod]
    by_cases h0 : hashKey key seed % 2 ^ fpBits = 0
    · rw [if_pos h0]
      norm_num
    · rw [if_neg h0]
      exact h0
  · rw [Nat.and_pow_two_sub_one_eq_mod]
    by_cases h0 : hashKey key seed % 2 ^ fpBits = 0
    · rw [if_pos h0]
      exact h2lt
    · rw [if_neg h0]
      exact Nat.mod_lt _ (two_pow_pos' fpBits)

theorem mem_of_nodup_bound (l : List Nat) (n : Nat) (hnd : l.Nodup)
    (hlt : ∀ x ∈ l, x < n) (hlen : l.length = n) (k : Nat) (hk : k < n) : k ∈ l := by
  have hsub : l ⊆ List.range n := fun x hx => List.mem_range.mpr (hlt x hx)
  have hsp := List.subperm_of_subset hnd hsub
  have hperm := hsp.perm_of_length_le (by rw [List.length_range, hlen])
  exact hperm.mem_iff.mpr (List.mem_range.mpr hk)

theorem constructFilter_go (fpBits seg : Nat) (keys : List Str) :
    ∀ (l : List Nat) (acc : Option (Nat × List Nat)),
      (∀ r, acc = some r → tryConstruct fpBits seg r.1 keys = some r.2) →
      ∀ r, l.foldl (fun acc seed =>
          match acc with
          | some r => some r
          | none => (tryConstruct fpBits seg seed keys).map fun f => (seed, f)) acc =
            some r →
        tryConstruct fpBits seg r.1 keys = some r.2
  | [], acc => by
    intro hacc r hr
    exact hacc r hr
  | s :: t, acc => by
    intro hacc r hr
    rw [List.foldl_cons] at hr
    rcases hacc' : acc with _ | r0
    · rw [hacc'] at hr
      refine constructFilter_go fpBits seg keys t _ ?_ r hr
      intro r' hr'
      cases htc : tryConstruct fpBits seg s keys with
      | none =>
        rw [htc] at hr'
        cases hr'
      | some fb =>
        rw [htc, Option.map_some'] at hr'
        have : r' = (s, fb) := by
          cases hr'
          rfl
        rw [this, htc]
    · rw [hacc'] at hr
      refine constructFilter_go fpBits seg keys t _ ?_ r hr
      intro r' hr'
      have : r' = r0 := by
        cases hr'
        rfl
      rw [this]
      exact hacc r0 hacc'

theorem constructFilter_spec (fpBits seg maxA : Nat) (keys : List Str)
    (r : Nat × List Nat) (h : constructFilter fpBits seg maxA keys = some r) :
    tryConstruct fpBits seg r.1 keys = some r.2 := by
  rw [constructFilter] at h
  exact constructFilter_go fpBits seg keys (List.range maxA) none
    (fun r' hr' => by cases hr') r h

theorem tryConstruct_spec (fpBits seg seed : Nat) (keys : List Str) (bytes : List Nat)
    (hw1 : 1 ≤ fpBits) (hw32 : fpBits ≤ 32) (hseg : 1 ≤ seg) (hn : keys.length ≤ 255)
    (hsome : tryConstruct fpBits seg seed keys = some bytes) :
    bytes.length = (3 * seg * fpBits + 7) / 8 ∧ BytesWF bytes ∧
    ∀ key ∈ keys,
      getFilterValue bytes fpBits (getLocationsAndFingerprint fpBits seg seed key).p0 ^^^
        getFilterValue bytes fpBits (getLocationsAndFingerprint fpBits seg seed key).p1 ^^^
        getFilterValue bytes fpBits (getLocationsAndFingerprint fpBits seg seed key).p2 =
        (getLocationsAndFingerprint fpBits seg seed key).fp := by
  set hashes := keys.map (getLocationsAndFingerprint fpBits seg seed) with hhashes
  have hlenh : hashes.length = keys.length := List.length_map _ _
  have hdist : ∀ h ∈ hashes, h.p0 ≠ h.p1 ∧ h.p0 ≠ h.p2 ∧ h.p1 ≠ h.p2 := by
    intro h hm
    obtain ⟨key, _, rfl⟩ := List.mem_map.mp hm
    obtain ⟨a1, a2, a3, a4, a5, _, _⟩ := getLoc_props fpBits seg seed key hseg hw1
    exact ⟨by omega, by omega, by omega⟩
  set L := (3 * seg * fpBits + 7) / 8 with hL
  have h8L : 3 * seg * fpBits ≤ 8 * L := by
    rw [hL]
    omega
  have hfit1 : ∀ p, p < 3 * seg → p * fpBits + fpBits ≤ 8 * L := by
    intro p hp
    calc p * fpBits + fpBits = (p + 1) * fpBits := by ring
      _ ≤ 3 * seg * fpBits := Nat.mul_le_mul_right _ (by omega)
      _ ≤ 8 * L := h8L
  have hfitAll : ∀ h ∈ hashes, h.p0 * fpBits + fpBits ≤ 8 * L ∧
      h.p1 * fpBits + fpBits ≤ 8 * L ∧ h.p2 * fpBits + fpBits ≤ 8 * L := by
    intro h hm
    obtain ⟨key, _, rfl⟩ := List.mem_map.mp hm
    obtain ⟨a1, a2, a3, a4, a5, _, _⟩ := getLoc_props fpBits seg seed key hseg hw1
    exact ⟨hfit1 _ (by omega), hfit1 _ (by omega), hfit1 _ (by omega)⟩
  have hfp : ∀ h ∈ hashes, h.fp < 2 ^ fpBits := by
    intro h hm
    obtain ⟨key, _, rfl⟩ := List.mem_map.mp hm
    exact (getLoc_props fpBits seg seed key hseg hw1).2.2.2.2.2.2
  have hfitpos : ∀ (j p : Nat), j < hashes.length →
      fuseHasPos (hashes.getD j ⟨0, 0, 0, 0⟩) p = true → p * fpBits + fpBits ≤ 8 * L := by
    intro j p hj hp
    have hmem : hashes.getD j ⟨0, 0, 0, 0⟩ ∈ hashes := by
      rw [List.getD_eq_getElem _ _ hj]
      exact List.getElem_mem hj
    obtain ⟨f0, f1, f2⟩ := hfitAll _ hmem
    rcases (fuseHasPos_iff _ _).mp hp with h' | h' | h' <;> rw [h'] <;> assumption
  simp only [tryConstruct] at hsome
  rw [← hhashes, ← hL] at hsome
  split at hsome
  case isFalse => cases hsome
  case isTrue hlenstack =>
  have hb := Option.some.inj hsome
  have hinit := buildIncidence_init hashes hdist (by rw [hlenh]; exact hn)
  have hc0 : ∀ p, (buildIncidence hashes.enum).1 p =
      (unpeeledAt hashes (([] : List (Nat × Nat)).map Prod.fst) p).length :=
    fun p => (hinit p).1
  have hx0 : ∀ p, (buildIncidence hashes.enum).2 p =
      listXor (unpeeledAt hashes (([] : List (Nat × Nat)).map Prod.fst) p) :=
    fun p => (hinit p).2
  have hinv0 : fuseStackInv hashes [] :=
    ⟨fun e he => absurd he (List.not_mem_nil e), List.nodup_nil, List.Pairwise.nil,
      fun e he => absurd he (List.not_mem_nil e)⟩
  have hstackinv : fuseStackInv hashes
      (peelLoop hashes (3 * seg + 3 * keys.length)
        ((List.range (3 * seg)).filter fun i => (buildIncidence hashes.enum).1 i = 1)
        (buildIncidence hashes.enum).1 (buildIncidence hashes.enum).2 []) :=
    peelLoop_sound hashes (by rw [hlenh]; exact hn) hdist _ _ _ _ [] hc0 hx0 hinv0
  set stack := peelLoop hashes (3 * seg + 3 * keys.length)
    ((List.range (3 * seg)).filter fun i => (buildIncidence hashes.enum).1 i = 1)
    (buildIncidence hashes.enum).1 (buildIncidence hashes.enum).2 [] with hstack
  obtain ⟨hent, hnd, hpw, hsep⟩ := hstackinv
  have hall : ∀ i, i < keys.length → i ∈ stack.map Prod.fst := by
    intro i hi
    refine mem_of_nodup_bound _ keys.length hnd ?_ ?_ i hi
    · intro x hx
      obtain ⟨e, he, rfl⟩ := List.mem_map.mp hx
      have := (hent e he).1
      omega
    · rw [List.length_map, hlenstack]
  have hentr : ∀ e ∈ stack.reverse, e.1 < hashes.length ∧
      fuseHasPos (hashes.getD e.1 ⟨0, 0, 0, 0⟩) e.2 = true :=
    fun e he => hent e (List.mem_reverse.mp he)
  have hsnd_nd : (stack.reverse.map Prod.snd).Nodup := by
    rw [List.map_reverse, List.nodup_reverse]
    refine List.pairwise_map.mpr ?_
    refine List.Pairwise.imp_of_mem ?_ hpw
    intro a b ha hb hr heq
    rw [heq] at hr
    rw [(hent b hb).2] at hr
    cases hr
  have hpwr : stack.reverse.Pairwise
      (fun a b => fuseHasPos (hashes.getD a.1 ⟨0, 0, 0, 0⟩) b.2 = false) :=
    List.pairwise_reverse.mpr hpw
  have hzero0 : ∀ e ∈ stack.reverse, getFilterValue (List.replicate L 0) fpBits e.2 = 0 := by
    intro e he
    obtain ⟨hk', hpos'⟩ := hentr e he
    rw [getFilterValue_eq_getBits _ _ _ (bytesWF_replicate L) hw32
      (by rw [List.length_replicate]; exact hfitpos e.1 e.2 hk' hpos'),
      leVal_replicate_zero, getBits_zero]
  obtain ⟨hwfF, hlenF, _, hxorF⟩ := assign_go hashes fpBits L hw32 hfitAll hdist hfp
    stack.reverse (List.replicate L 0) (bytesWF_replicate L) (List.length_replicate L 0)
    hentr hsnd_nd hpwr hzero0
  have hassign : assignStack hashes fpBits stack (List.replicate L 0) =
      stack.reverse.foldl (fun bytes kp =>
        setFilterValue bytes fpBits kp.2 ((hashes.getD kp.1 ⟨0, 0, 0, 0⟩).fp ^^^
          (getFilterValue bytes fpBits (hashes.getD kp.1 ⟨0, 0, 0, 0⟩).p0 ^^^
            getFilterValue bytes fpBits (hashes.getD kp.1 ⟨0, 0, 0, 0⟩).p1 ^^^
            getFilterValue bytes fpBits (hashes.getD kp.1 ⟨0, 0, 0, 0⟩).p2)))
        (List.replicate L 0) := rfl
  rw [hassign] at hb
  refine ⟨?_, ?_, ?_⟩
  · rw [← hb, hlenF]
  · rw [← hb]
    exact hwfF
  · intro key hkey
    obtain ⟨i, hi, hik⟩ := List.mem_iff_getElem.mp hkey
    have hgd : hashes.getD i ⟨0, 0, 0, 0⟩ = getLocationsAndFingerprint fpBits seg seed key := by
      have h1 : hashes[i]? = some (getLocationsAndFingerprint fpBits seg seed key) := by
        rw [hhashes, List.getElem?_map, List.getElem?_eq_getElem hi, Option.map_some', hik]
      rw [List.getD_eq_getElem?_getD, h1]
      rfl
    obtain ⟨e, he, hei⟩ := List.mem_map.mp (hall i hi)
    have her : e ∈ stack.reverse := List.mem_reverse.mpr he
    have hx3 := hxorF e her
    rw [hei, hgd] at hx3
    rw [← hb]
    exact hx3

/-- Bounded no-false-negative theorem for the binary fuse filter: when
`fuseFromKeySet` succeeds and every `uint8_t` incidence counter of
`try_construct` stays exact (guaranteed here by `keys.length ≤ 255`, since a
slot's incidence is at most the number of keys), every key of the set satisfies
`possibly_contains = true`: the XOR of the packed filter values at the key's
three derived positions equals the key's fingerprint, and that fingerprint is
never zero (zero is remapped to 1).  The sizing hypotheses mirror the policies
(`fingerprint_bits ∈ [4,32]` clamped, `segment_length ≥ 1`).  For key sets that
put more than 255 keys on one slot the source's counters wrap at 256 and this
argument does not apply. -/
theorem binary_fuse_no_false_negatives_bounded (fpBits seg : Nat) (keys : List Str)
    (f : BinaryFuseFilter) (key : Str)
    (hw1 : 1 ≤ fpBits) (hw32 : fpBits ≤ 32) (hseg : 1 ≤ seg) (hn : keys.length ≤ 255)
    (hbuild : fuseFromKeySet fpBits seg keys = some f) (hkey : key ∈ keys) :
    fusePossiblyContains f key = true ∧
    (getLocationsAndFingerprint f.fingerprintBits f.segmentLength f.seed key).fp ≠ 0 := by
  have hne : keys.length ≠ 0 := by
    intro h0
    rw [List.length_eq_zero] at h0
    rw [h0] at hkey
    cases hkey
  rw [fuseFromKeySet, if_neg hne] at hbuild
  cases hcf : constructFilter fpBits seg 500 keys with
  | none =>
    rw [hcf] at hbuild
    cases hbuild
  | some r =>
    rw [hcf, Option.map_some'] at hbuild
    have hf := Option.some.inj hbuild
    have htc := constructFilter_spec fpBits seg 500 keys r hcf
    obtain ⟨hlen, hwf, hx3all⟩ :=
      tryConstruct_spec fpBits seg r.1 keys r.2 hw1 hw32 hseg hn htc
    have hx3 := hx3all key hkey
    subst hf
    have hLpos : 1 ≤ (3 * seg * fpBits + 7) / 8 := by
      have h1 : 1 ≤ seg * fpBits := Nat.one_le_iff_ne_zero.mpr
        (Nat.mul_ne_zero (by omega) (by omega))
      have h3 : 3 ≤ 3 * seg * fpBits := by
        calc (3 : Nat) = 3 * 1 := by norm_num
          _ ≤ 3 * (seg * fpBits) := Nat.mul_le_mul_left 3 h1
          _ = 3 * seg * fpBits := by ring
      omega
    have hbne : r.2 ≠ [] := by
      intro hnil
      rw [hnil] at hlen
      simp only [List.length_nil] at hlen
      omega
    constructor
    · have hemp : (List.isEmpty r.2) = false := by
        cases hr2 : r.2 with
        | nil => exact absurd hr2 hbne
        | cons a t => rfl
      show (if List.isEmpty r.2 = true then false
        else ((getFilterValue r.2 fpBits
              (getLocationsAndFingerprint fpBits seg r.1 key).p0 ^^^
            getFilterValue r.2 fpBits
              (getLocationsAndFingerprint fpBits seg r.1 key).p1 ^^^
            getFilterValue r.2 fpBits
              (getLocationsAndFingerprint fpBits seg r.1 key).p2) ==
          (getLocationsAndFingerprint fpBits seg r.1 key).fp)) = true
      rw [hemp, if_neg Bool.false_ne_true, hx3]
      exact beq_self_eq_true _
    · show (getLocationsAndFingerprint fpBits seg r.1 key).fp ≠ 0
      exact (getLoc_props fpBits seg r.1 key hseg hw1).2.2.2.2.2.1

/-- Concrete instance of the bounded theorem: the filter built from the single
key `"a"` with `fingerprint_bits = 8`, `segment_length = 1` (seed 0 succeeds,
packed buffer `[117, 0, 0]`) answers `possibly_contains("a") = true` with
fingerprint 117. -/
theorem binary_fuse_no_false_negatives_bounded_witness :
    fusePossiblyContains ⟨[117, 0, 0], 3, 1, 8, 0⟩ [97] = true ∧
    (getLocationsAndFingerprint 8 1 0 [97]).fp ≠ 0 :=
  binary_fuse_no_false_negatives_bounded 8 1 [[97]] ⟨[117, 0, 0], 3, 1, 8, 0⟩ [97]
    (by norm_num) (by norm_num) (by norm_num) (by norm_num) (by rfl)
    (List.mem_singleton.mpr rfl)

/-! ### Claim C4 — scan-loop characterisation -/

theorem foldl_classify (p : Str → Bool) (ids : List Str) (acc : List Str × Nat) :
    ids.foldl (fun acc id => if p id then (acc.1 ++ [id], acc.2) else (acc.1, acc.2 + 1))
        acc =
      (acc.1 ++ ids.filter p, acc.2 + (ids.filter (fun id => !p id)).length) := by
  induction ids generalizing acc with
  | nil => simp
  | cons id ids ih =>
    rw [List.foldl_cons]
    cases hp : p id with
    | true => simp [hp, ih]
    | false => simp [hp, ih, Nat.add_comm, Nat.add_assoc, Nat.add_left_comm]

theorem scan_step_eq (bodyDecode : Nat → List Nat → Option (Str → Bool))
    (defaultAnswer : Str → Bool) (entries : List (Str × PackIndexEntry))
    (packBytes : List Nat) (bodyOffset : Nat) (uT uTL : List Str)
    (acc : List Str × Nat) (archiveId : Str) :
    (match alookup entries archiveId with
      | none => (acc.1 ++ [archiveId], acc.2)
      | some e =>
        let start := bodyOffset + e.offset
        if packBytes.length < start + e.size then (acc.1 ++ [archiveId], acc.2)
        else
          match readFilterFile bodyDecode defaultAnswer
            ((packBytes.drop start).take e.size) with
          | none => (acc.1 ++ [archiveId], acc.2)
          | some (cfg, pc) =>
            if (if cfg.normalize then uTL else uT).all (fun t => pc t) then
              (acc.1 ++ [archiveId], acc.2)
            else (acc.1, acc.2 + 1)) =
      if scanArchivePasses bodyDecode defaultAnswer entries packBytes bodyOffset uT uTL
          archiveId then
        (acc.1 ++ [archiveId], acc.2)
      else (acc.1, acc.2 + 1) := by
  rw [scanArchivePasses]
  cases hlu : alookup entries archiveId with
  | none => simp
  | some e =>
    simp only
    by_cases hrange : packBytes.length < bodyOffset + e.offset + e.size
    · simp [hrange]
    · simp only [if_neg hrange]
      cases hdec : readFilterFile bodyDecode defaultAnswer
        ((packBytes.drop (bodyOffset + e.offset)).take e.size) with
      | none => simp
      | some r =>
        obtain ⟨cfg, pc⟩ := r
        cases hall : (if cfg.normalize then uTL else uT).all (fun t => pc t) with
        | true => simp [hall]
        | false => simp [hall]

/-- Claim C4: in the archive-tier scan with a supported query and non-empty term
list, each requested archive id is classified conservatively into `passed` when it
has no pack-index entry, its byte range lies outside the pack, or its filter file
fails to decode; a decoded filter puts the archive into `passed` exactly when every
deduplicated term (lower-cased first when the filter's normalize flag is set)
passes `possibly_contains`, and otherwise the archive is counted in `skipped`. -/
theorem c4_filter_scan_classification (bodyDecode : Nat → List Nat → Option (Str → Bool))
    (defaultAnswer : Str → Bool) (entries : List (Str × PackIndexEntry))
    (packBytes : List Nat) (bodyOffset : Nat) (terms : List Str) (archiveIds : List Str)
    (_hterms : terms ≠ []) :
    (runFilterScan bodyDecode defaultAnswer entries packBytes bodyOffset terms
        archiveIds).1 =
      archiveIds.filter (scanArchivePasses bodyDecode defaultAnswer entries packBytes
        bodyOffset (dedupTerms terms) ((dedupTerms terms).map toLowerStr)) ∧
    (runFilterScan bodyDecode defaultAnswer entries packBytes bodyOffset terms
        archiveIds).2 =
      (archiveIds.filter (fun id => ! scanArchivePasses bodyDecode defaultAnswer entries
        packBytes bodyOffset (dedupTerms terms) ((dedupTerms terms).map toLowerStr)
        id)).length ∧
    (∀ id, scanArchivePasses bodyDecode defaultAnswer entries packBytes bodyOffset
        (dedupTerms terms) ((dedupTerms terms).map toLowerStr) id = true ↔
      alookup entries id = none ∨
      ∃ e, alookup entries id = some e ∧
        (packBytes.length < bodyOffset + e.offset + e.size ∨
          readFilterFile bodyDecode defaultAnswer
            ((packBytes.drop (bodyOffset + e.offset)).take e.size) = none ∨
          ∃ cfg pc, readFilterFile bodyDecode defaultAnswer
              ((packBytes.drop (bodyOffset + e.offset)).take e.size) = some (cfg, pc) ∧
            ∀ t ∈ (if cfg.normalize then (dedupTerms terms).map toLowerStr
              else dedupTerms terms), pc t = true)) := by
  have hfold : runFilterScan bodyDecode defaultAnswer entries packBytes bodyOffset terms
      archiveIds =
      (archiveIds.filter (scanArchivePasses bodyDecode defaultAnswer entries packBytes
        bodyOffset (dedupTerms terms) ((dedupTerms terms).map toLowerStr)),
       (archiveIds.filter (fun id => ! scanArchivePasses bodyDecode defaultAnswer entries
        packBytes bodyOffset (dedupTerms terms) ((dedupTerms terms).map toLowerStr)
        id)).length) := by
    rw [runFilterScan]
    have hstep : (fun (acc : List Str × Nat) archiveId =>
        match alookup entries archiveId with
        | none => (acc.1 ++ [archiveId], acc.2)
        | some e =>
          let start := bodyOffset + e.offset
          if packBytes.length < start + e.size then (acc.1 ++ [archiveId], acc.2)
          else
            match readFilterFile bodyDecode defaultAnswer
              ((packBytes.drop start).take e.size) with
            | none => (acc.1 ++ [archiveId], acc.2)
            | some (cfg, pc) =>
              if (if cfg.normalize then (dedupTerms terms).map toLowerStr
                  else dedupTerms terms).all (fun t => pc t) then
                (acc.1 ++ [archiveId], acc.2)
              else (acc.1, acc.2 + 1)) =
        fun (acc : List Str × Nat) archiveId =>
          if scanArchivePasses bodyDecode defaultAnswer entries packBytes bodyOffset
              (dedupTerms terms) ((dedupTerms terms).map toLowerStr) archiveId then
            (acc.1 ++ [archiveId], acc.2)
          else (acc.1, acc.2 + 1) := by
      funext acc archiveId
      exact scan_step_eq bodyDecode defaultAnswer entries packBytes bodyOffset
        (dedupTerms terms) ((dedupTerms terms).map toLowerStr) acc archiveId
    rw [hstep, foldl_classify]
    simp
  refine ⟨by rw [hfold], by rw [hfold], fun id => ?_⟩
  set uT := dedupTerms terms
  set uTL := uT.map toLowerStr
  constructor
  · intro hpass
    rw [scanArchivePasses] at hpass
    cases hlu : alookup entries id with
    | none => exact Or.inl rfl
    | some e =>
      rw [hlu] at hpass
      have hpass1 : (if packBytes.length < bodyOffset + e.offset + e.size then true
          else match readFilterFile bodyDecode defaultAnswer
            ((packBytes.drop (bodyOffset + e.offset)).take e.size) with
          | none => true
          | some (cfg, pc) =>
            (if cfg.normalize then uTL else uT).all fun t => pc t) = true := hpass
      by_cases hrange : packBytes.length < bodyOffset + e.offset + e.size
      · exact Or.inr ⟨e, rfl, Or.inl hrange⟩
      · rw [if_neg hrange] at hpass1
        cases hdec : readFilterFile bodyDecode defaultAnswer
          ((packBytes.drop (bodyOffset + e.offset)).take e.size) with
        | none => exact Or.inr ⟨e, rfl, Or.inr (Or.inl hdec)⟩
        | some r =>
          obtain ⟨cfg, pc⟩ := r
          rw [hdec] at hpass1
          have hpass2 : ((if cfg.normalize then uTL else uT).all fun t => pc t) = true :=
            hpass1
          exact Or.inr ⟨e, rfl, Or.inr (Or.inr ⟨cfg, pc, hdec,
            fun t ht => List.all_eq_true.mp hpass2 t ht⟩)⟩
  · intro hcase
    rw [scanArchivePasses]
    rcases hcase with hnone | ⟨e, he, hcase⟩
    · rw [hnone]
    · rw [he]
      show (if packBytes.length < bodyOffset + e.offset + e.size then true
          else match readFilterFile bodyDecode defaultAnswer
            ((packBytes.drop (bodyOffset + e.offset)).take e.size) with
          | none => true
          | some (cfg, pc) =>
            (if cfg.normalize then uTL else uT).all fun t => pc t) = true
      rcases hcase with hr | hd | ⟨cfg, pc, hdec, hall⟩
      · rw [if_pos hr]
      · by_cases hrange : packBytes.length < bodyOffset + e.offset + e.size
        · rw [if_pos hrange]
        · rw [if_neg hrange, hd]
      · by_cases hrange : packBytes.length < bodyOffset + e.offset + e.size
        · rw [if_pos hrange]
        · rw [if_neg hrange, hdec]
          show ((if cfg.normalize then uTL else uT).all fun t => pc t) = true
          exact List.all_eq_true.mpr fun t ht => hall t ht

/-- Claim C4 witness: a pack holding one well-formed filter file whose filter
rejects the term (the archive is skipped) and a second requested id with no index
entry (conservatively passed). -/
theorem c4_filter_scan_classification_witness :
    (runFilterScan (fun _ _ => some (fun _ => false)) (fun _ => true)
        [([65], ⟨0, 28⟩)]
        [67, 76, 80, 70, 1, 0, 0, 0, 1, 0, 0, 0, 0, 0, 0, 0, 0, 0, 0, 0,
          0, 0, 0, 0, 0, 0, 0, 0] 0 [[97]] [[65], [66]]).1 = [[66]] ∧
    (runFilterScan (fun _ _ => some (fun _ => false)) (fun _ => true)
        [([65], ⟨0, 28⟩)]
        [67, 76, 80, 70, 1, 0, 0, 0, 1, 0, 0, 0, 0, 0, 0, 0, 0, 0, 0, 0,
          0, 0, 0, 0, 0, 0, 0, 0] 0 [[97]] [[65], [66]]).2 = 1 := by
  have h := c4_filter_scan_classification (fun _ _ => some (fun _ => false))
    (fun _ => true) [([65], ⟨0, 28⟩)]
    [67, 76, 80, 70, 1, 0, 0, 0, 1, 0, 0, 0, 0, 0, 0, 0, 0, 0, 0, 0,
      0, 0, 0, 0, 0, 0, 0, 0] 0 [[97]] [[65], [66]] (by decide)
  refine ⟨h.1.trans ?_, h.2.1.trans ?_⟩ <;> decide

/-- Claim C9 amended-theorem witness: instantiated at `lnTwo = 0.6931` and `p = 0`. -/
theorem c9_policy_parameters_witness :
    computeParameters (fun _ => 0) (6931 / 10000) 0 = (100, 69) :=
  (c9_policy_parameters (fun _ => 0) (6931 / 10000) (by norm_num) (by norm_num)).1 0 le_rfl

end ClpS
